import Mathlib

/-!
Shallow embedding of the dkron storage layer (`dkron/store.go`) and proofs
about the behaviour of its operations.

Modelling conventions:
* BadgerDB is modelled as an association list from string keys to decoded
  values (`State`).  The opaque protobuf codec round-trips losslessly and the
  store never inspects the bytes, so a stored value is represented by the
  decoded record itself; a `Value.marker` stands for a legacy
  "directory/container" key whose payload is not a record.
* `time.Time` values are modelled as `Int` (Unix seconds); `t1.After t2`
  is `t1 > t2`, `t1.Before t2` is `t1 < t2`.
* Transactions are sequential state passing.  Nested `db.Update`/`db.View`
  calls in the source open independent transactions that commit before the
  outer one; since every operation writes pairwise distinct keys, applying
  the outer transaction's writes at its commit point (last) gives the same
  final state.  Conflict/TxnTooBig signals of the engine cannot arise in a
  sequential semantics and are not modelled.
* `cron.Parse` and `time.LoadLocation` are external collaborators, kept
  abstract as boolean predicates in `Env`.
* The `Agent` pointer and the derived, never-persisted `Status` field are
  omitted from `Job`.
-/

namespace Dkron

/-- A stored job record.  Mirrors the persisted fields of `dkron.Job`
used by `store.go` (the runtime-only `Agent` pointer and the derived
`Status` view are never persisted and are omitted). -/
structure Job where
  Name : String
  Schedule : String
  ParentJob : String
  DependentJobs : List String
  Concurrency : String
  Timezone : String
  SuccessCount : Int
  ErrorCount : Int
  LastSuccess : Int
  LastError : Int
deriving DecidableEq, Repr

/-- A stored execution record.  `Key` models the per-execution
disambiguating key `Execution.Key()`.  Modelled from the spec: `Key()` is
defined outside `store.go`; the spec describes it as "a per-execution key
unique within the job, derived from start/finish time", so it is carried
as an abstract string attribute of the execution. -/
structure Execution where
  JobName : String
  Key : String
  Group : Int
  StartedAt : Int
  FinishedAt : Int
  Success : Bool
deriving DecidableEq, Repr

/-- A decoded stored value: a job record, an execution record, or the
payload of a legacy container/"directory" key (whose content is never
decoded by the code paths modelled here). -/
inductive Value where
  | job (j : Job)
  | exec (e : Execution)
  | marker
deriving DecidableEq, Repr

/-- The BadgerDB contents: an association list of key/value pairs.
The list order models the engine's iteration order. -/
abbrev State := List (String × Value)

/-- Errors surfaced by the storage layer.  `notFound` is
`badger.ErrKeyNotFound`; `sameParent`, `scheduleParse`,
`wrongConcurrency` and `badTimezone` are the validation errors;
`decode` is a protobuf unmarshal failure; `outOfFuel` signals
exhaustion of the fuel that bounds the modelled recursion (it never
occurs for sufficient fuel). -/
inductive Err where
  | notFound
  | sameParent
  | scheduleParse
  | wrongConcurrency
  | badTimezone
  | decode
  | outOfFuel
deriving DecidableEq, Repr

/-- Is this error one of the validation errors raised by `validateJob`? -/
def Err.isValidation : Err → Bool
  | .sameParent | .scheduleParse | .wrongConcurrency | .badTimezone => true
  | _ => false

/-- External collaborators abstracted as predicates: `cronOk s` models
`cron.Parse s` succeeding, `tzOk s` models `time.LoadLocation s`
succeeding.  Modelled from the spec: both parsers live outside
`store.go` and are consumed only for validation. -/
structure Env where
  cronOk : String → Bool
  tzOk : String → Bool

/-- `ConcurrencyAllow`.  Modelled from the spec: the constant is declared
outside `store.go`; its concrete value is irrelevant to the claims. -/
def ConcurrencyAllow : String := "allow"

/-- `ConcurrencyForbid`.  Modelled from the spec: the constant is declared
outside `store.go`. -/
def ConcurrencyForbid : String := "forbid"

/-- `MaxExecutions` (store.go line 22). -/
def MaxExecutions : Nat := 100

/-! ## String helpers

Go works on UTF-8 bytes; for valid strings, byte-prefix and trailing
`'/'`-byte tests coincide with the character-level tests used here. -/

/-- `strings.HasPrefix p s` / `it.ValidForPrefix`. -/
def hasPfx (p s : String) : Bool := p.data.isPrefixOf s.data

/-- `isDirectoryKey` (store.go line 706): nonempty and ends in `'/'`. -/
def isDirectoryKey (k : String) : Bool := k.data.getLast? == some '/'

/-- `trimDirectoryKey` (store.go line 698). -/
def trimDirectoryKey (k : String) : String :=
  if isDirectoryKey k then ⟨k.data.dropLast⟩ else k

/-- `strings.TrimSuffix prefix "/"` (store.go line 436): removes one
trailing `'/'` when present. -/
def trimSuffixSlash (s : String) : String :=
  if isDirectoryKey s then ⟨s.data.dropLast⟩ else s

/-! ## Key-value primitives -/

/-- `txn.Get`: the value stored at a key. -/
def dbGet (st : State) (k : String) : Option Value :=
  (st.find? (fun kv => kv.1 == k)).map (fun kv => kv.2)

/-- `txn.Set`: overwrite the value at a key, or append a new entry. -/
def dbSet (st : State) (k : String) (v : Value) : State :=
  if st.any (fun kv => kv.1 == k) then
    st.map (fun kv => if kv.1 == k then (k, v) else kv)
  else
    st ++ [(k, v)]

/-- `txn.Delete`: remove every entry at a key. -/
def dbDelete (st : State) (k : String) : State :=
  st.filter (fun kv => kv.1 != k)

/-! ## Listing primitive and readers -/

/-- `Store.list` (store.go lines 435-474): scan every entry whose key has
the (slash-trimmed) prefix, skipping a container-marker key equal to the
prefix; with `checkRoot`, report `notFound` when the scan matched no key
at all (even a skipped marker counts as "found"). -/
def list (st : State) (pfx : String) (checkRoot : Bool) : Except Err (List (String × Value)) :=
  let p := trimSuffixSlash pfx
  let found := st.any (fun kv => hasPfx p kv.1)
  let kvs := st.filter (fun kv => hasPfx p kv.1 && trimDirectoryKey kv.1 != p)
  if checkRoot && !found then .error .notFound else .ok kvs

/-- `unmarshalExecutions` (store.go lines 683-696): decode every listed
value as an execution. -/
def unmarshalExecutions (items : List (String × Value)) : Except Err (List Execution) :=
  items.mapM (fun kv =>
    match kv.2 with
    | .exec e => Except.ok e
    | _ => Except.error Err.decode)

/-- `GetExecutions` (store.go lines 419-428). -/
def GetExecutions (st : State) (jobName : String) : Except Err (List Execution) :=
  match list st ("executions/" ++ jobName) true with
  | .error e => .error e
  | .ok kvs => unmarshalExecutions kvs

/-- `GetJob` (store.go lines 343-375): read and decode `jobs/<name>`.
(The `Agent` attachment and optional `Status` computation touch only
non-persisted fields and are omitted.) -/
def GetJob (st : State) (name : String) : Except Err Job :=
  match dbGet st ("jobs/" ++ name) with
  | none => .error .notFound
  | some (.job j) => .ok j
  | some _ => .error .decode

/-! ## Validation -/

/-- `validateTimeZone` (store.go lines 208-214). -/
def validateTimeZone (env : Env) (timezone : String) : Option Err :=
  if timezone = "" then none
  else if env.tzOk timezone then none else some .badTimezone

/-- `validateJob` (store.go lines 258-278). -/
def validateJob (env : Env) (job : Job) : Option Err :=
  if job.ParentJob = job.Name then some .sameParent
  else if job.ParentJob = "" && !env.cronOk job.Schedule then some .scheduleParse
  else if job.Concurrency ≠ ConcurrencyAllow && job.Concurrency ≠ ConcurrencyForbid
      && job.Concurrency ≠ "" then some .wrongConcurrency
  else validateTimeZone env job.Timezone

/-! ## Job upsert -/

/-- The merge of stored status fields into the incoming job
(store.go lines 111-129): `LastError`/`LastSuccess` keep the later
timestamp, the counters keep the larger value, and with
`copyDependentJobs` a nonempty stored `DependentJobs` is preserved. -/
def mergeExisting (job : Job) (ej : Option Job) (copyDependentJobs : Bool) : Job :=
  match ej with
  | none => job
  | some e =>
    { job with
      LastError := if e.LastError > job.LastError then e.LastError else job.LastError
      LastSuccess := if e.LastSuccess > job.LastSuccess then e.LastSuccess else job.LastSuccess
      SuccessCount := if e.SuccessCount > job.SuccessCount then e.SuccessCount else job.SuccessCount
      ErrorCount := if e.ErrorCount > job.ErrorCount then e.ErrorCount else job.ErrorCount
      DependentJobs := if !e.DependentJobs.isEmpty && copyDependentJobs
        then e.DependentJobs else job.DependentJobs }

/-- The read of the existing job in `SetJob` (store.go lines 107-110):
absence is not an error, any other read error aborts. -/
def getExistingJob (st : State) (name : String) : Except Err (Option Job) :=
  match GetJob st name with
  | .ok j => .ok (some j)
  | .error .notFound => .ok none
  | .error e => .error e

/-- `removeFromParent` (store.go lines 159-186), parametrised by the
`SetJob` call used to persist the parent.  `child.GetParent()` is
modelled from the spec as a lookup of `child.ParentJob` (the method is
declared outside `store.go`).  All occurrences of the child's name are
stripped from the parent's `DependentJobs`. -/
def removeFromParentAux (setjob : Job → Bool → State → Option Err × State)
    (child : Option Job) (st : State) : Option Err × State :=
  match child with
  | none => (none, st)
  | some c =>
    if c.ParentJob = "" then (none, st)
    else
      match GetJob st c.ParentJob with
      | .error e => (some e, st)
      | .ok parent =>
        setjob { parent with
                   DependentJobs := parent.DependentJobs.filter (fun djn => djn ≠ c.Name) }
          false st

/-- `addToParent` (store.go lines 189-206), parametrised like
`removeFromParentAux`. -/
def addToParentAux (setjob : Job → Bool → State → Option Err × State)
    (child : Job) (st : State) : Option Err × State :=
  if child.ParentJob = "" then (none, st)
  else
    match GetJob st child.ParentJob with
    | .error e => (some e, st)
    | .ok parent =>
      setjob { parent with DependentJobs := parent.DependentJobs ++ [child.Name] } false st

/-- `SetJob` (store.go lines 93-157).  Recursion through
`removeFromParent`/`addToParent` is bounded by `fuel`; the source's
recursion depth is at most 2, so any `fuel ≥ 2` behaves like the source.
Validation runs before the transaction.  The outer transaction's single
write (`txn.Set jobKey`) commits after the parent updates, which run in
their own transactions against the committed state, exactly as in the
source; on an error from a parent update the outer write is discarded
but the already-committed parent updates persist. -/
def SetJob (env : Env) : Nat → Job → Bool → State → Option Err × State
  | 0, job, _, st =>
    (match validateJob env job with
     | some e => (some e, st)
     | none => (some .outOfFuel, st))
  | fuel + 1, job, copyDependentJobs, st =>
    match validateJob env job with
    | some e => (some e, st)
    | none =>
      match getExistingJob st job.Name with
      | .error e => (some e, st)
      | .ok ej =>
        let merged := mergeExisting job ej copyDependentJobs
        let parentChanged : Bool :=
          match ej with
          | none => merged.ParentJob ≠ ""
          | some e => merged.ParentJob ≠ e.ParentJob
        if parentChanged then
          match removeFromParentAux (SetJob env fuel) ej st with
          | (some err, st1) => (some err, st1)
          | (none, st1) =>
            match addToParentAux (SetJob env fuel) merged st1 with
            | (some err, st2) => (some err, st2)
            | (none, st2) => (none, dbSet st2 ("jobs/" ++ job.Name) (.job merged))
        else (none, dbSet st ("jobs/" ++ job.Name) (.job merged))

/-- `removeFromParent` with the recursion bound supplied. -/
def removeFromParent (env : Env) (fuel : Nat) : Option Job → State → Option Err × State :=
  removeFromParentAux (SetJob env fuel)

/-- `addToParent` with the recursion bound supplied. -/
def addToParent (env : Env) (fuel : Nat) : Job → State → Option Err × State :=
  addToParentAux (SetJob env fuel)

/-! ## Deletion -/

/-- `DeleteExecutions` (store.go lines 612-665).  The scan prefix is the
bare job name (line 613).  In the sequential semantics no conflict and
no `ErrTxnTooBig` can occur, so: if the scan finds a matching key, the
first `txn.Delete` succeeds (`err = nil ≠ ErrTxnTooBig`) and the
function returns that `nil` at line 634 without ever committing the
transaction — the staged delete is discarded; if no key matches, the
empty transaction commits.  Either way the state is unchanged and no
error is returned. -/
def DeleteExecutions (jobName : String) (st : State) : Option Err × State :=
  let pfx := jobName
  match st.find? (fun kv => hasPfx pfx kv.1) with
  | some _ => (none, st)
  | none => (none, st)

/-- The loop over `j.DependentJobs` in `DeleteJob` (store.go lines
394-404): load each child, clear its `ParentJob`, persist it. -/
def clearChildren (env : Env) (fuel : Nat) : List String → State → Option Err × State
  | [], st => (none, st)
  | djn :: rest, st =>
    match GetJob st djn with
    | .error e => (some e, st)
    | .ok child =>
      match SetJob env fuel { child with ParentJob := "" } false st with
      | (some e, st') => (some e, st')
      | (none, st') => clearChildren env fuel rest st'

/-- `DeleteJob` (store.go lines 379-416): load the job (NotFound
aborts), detach it from its parent, clear `ParentJob` of every
dependent job, call `DeleteExecutions`, and delete the job's record. -/
def DeleteJob (env : Env) (fuel : Nat) (name : String) (st : State) :
    Option Err × Option Job × State :=
  match GetJob st name with
  | .error e => (some e, none, st)
  | .ok j =>
    let step1 := if j.ParentJob ≠ "" then removeFromParent env fuel (some j) st else (none, st)
    match step1 with
    | (some e, st1) => (some e, some j, st1)
    | (none, st1) =>
      match clearChildren env fuel j.DependentJobs st1 with
      | (some e, st2) => (some e, some j, st2)
      | (none, st2) =>
        match DeleteExecutions name st2 with
        | (some e, st3) => (some e, some j, st3)
        | (none, st3) => (none, some j, dbDelete st3 ("jobs/" ++ name))

/-! ## Execution save -/

/-- The storage key of an execution (store.go line 536). -/
def execKey (e : Execution) : String :=
  "executions/" ++ e.JobName ++ "/" ++ e.Key

/-- `SetExecution` (store.go lines 529-609).  First transaction: read
any previous execution at the key and discard the write when the stored
`FinishedAt` seconds are strictly greater (out-of-order guard);
otherwise write.  Then the retention pass: list the job's executions
(an error there is only logged), and when more than `MaxExecutions`
remain, delete the oldest by `StartedAt`, each in its own transaction.
`sort.Slice` is an unstable sort by strict `Before`; it is modelled by
insertion sort with the reflexive order, one of its admissible
outcomes.  Returns the computed key and the error of the first
transaction only. -/
def SetExecution (e : Execution) (st : State) : Option Err × String × State :=
  let key := execKey e
  let txnRes : Except Err State :=
    match dbGet st key with
    | some (.exec p) =>
      if p.FinishedAt > e.FinishedAt then .ok st else .ok (dbSet st key (.exec e))
    | some _ => .error .decode
    | none => .ok (dbSet st key (.exec e))
  match txnRes with
  | .error err => (some err, "", st)
  | .ok st1 =>
    let st2 :=
      match GetExecutions st1 e.JobName with
      | .error _ => st1
      | .ok execs =>
        if execs.length > MaxExecutions then
          let sorted := List.insertionSort (fun a b => a.StartedAt ≤ b.StartedAt) execs
          (sorted.take (execs.length - MaxExecutions)).foldl
            (fun acc ex => dbDelete acc (execKey ex)) st1
        else st1
    (none, key, st2)

/-! ## Grouped views -/

/-- `GetGroupedExecutions` (store.go lines 506-526): the Go map is
modelled extensionally (`groups g` is the sublist of executions with
group `g`, in scan order, exactly as the map accumulates them); the
group identifiers — distinct by construction in a map — are returned
sorted descending, which determines them uniquely regardless of the
map's iteration order. -/
def GetGroupedExecutions (st : State) (jobName : String) :
    Except Err ((Int → List Execution) × List Int) :=
  match GetExecutions st jobName with
  | .error e => .error e
  | .ok execs =>
    let groups : Int → List Execution := fun g => execs.filter (fun ex => ex.Group = g)
    let keys := (execs.map (fun ex => ex.Group)).dedup
    let byGroup := List.insertionSort (fun a b : Int => b ≤ a) keys
    .ok (groups, byGroup)

/-- `GetLastExecutionGroup` (store.go lines 477-488): the executions of
the first (= numerically greatest) group identifier, or `nil` when
there are no groups.  (`len(executions) > 0 && len(byGroup) > 0` in the
source: the map and the sorted key list are empty together.) -/
def GetLastExecutionGroup (st : State) (jobName : String) : Except Err (List Execution) :=
  match GetGroupedExecutions st jobName with
  | .error e => .error e
  | .ok (groups, byGroup) =>
    match byGroup with
    | g :: _ => .ok (groups g)
    | [] => .ok []

/-! ## Well-formed states -/

/-- A single entry is well formed when its key agrees with its decoded
value: jobs live at `jobs/<Name>` and are not their own parent (as
`validateJob` guarantees for every written job), executions live at
`executions/<JobName>/<Key>` with a nonempty per-execution key (the
key derived from start time and node is never empty). -/
def entryOk : String × Value → Prop
  | (k, .job j) => k = "jobs/" ++ j.Name ∧ j.ParentJob ≠ j.Name
  | (k, .exec e) => k = "executions/" ++ e.JobName ++ "/" ++ e.Key ∧ e.Key ≠ ""
  | (_, .marker) => False

instance : DecidablePred entryOk := fun kv =>
  match kv with
  | (_, .job _) => by unfold entryOk; infer_instance
  | (_, .exec _) => by unfold entryOk; infer_instance
  | (_, .marker) => by unfold entryOk; infer_instance

/-- Well-formed store: distinct keys, every entry consistent. -/
def WF (st : State) : Prop :=
  (st.map Prod.fst).Nodup ∧ ∀ kv ∈ st, entryOk kv

instance : DecidablePred WF := fun st => by unfold WF; infer_instance

/-! ## String lemmas -/

theorem strData_append (a b : String) : (a ++ b).data = a.data ++ b.data := by
  cases a; cases b; rfl

theorem strEq_of_data_eq {a b : String} (h : a.data = b.data) : a = b := by
  cases a; cases b; exact congrArg String.mk h

theorem strAppend_cancel_left {a b c : String} (h : a ++ b = a ++ c) : b = c := by
  have hd := congrArg String.data h
  rw [strData_append, strData_append] at hd
  exact strEq_of_data_eq (List.append_cancel_left hd)

theorem strData_ne_nil_iff {s : String} : s.data = [] ↔ s = "" := by
  constructor
  · intro h; exact strEq_of_data_eq (h.trans rfl)
  · intro h; subst h; rfl

theorem jobs_key_ne_exec_key (a b : String) : "jobs/" ++ a ≠ "executions/" ++ b := by
  intro h
  have hd := congrArg String.data h
  rw [strData_append, strData_append] at hd
  have h1 : ("jobs/" : String).data = ['j', 'o', 'b', 's', '/'] := rfl
  have h2 : ("executions/" : String).data =
      ['e', 'x', 'e', 'c', 'u', 't', 'i', 'o', 'n', 's', '/'] := rfl
  rw [h1, h2] at hd
  simp at hd

theorem hasPfx_iff {p s : String} : hasPfx p s = true ↔ p.data <+: s.data := by
  simp [hasPfx, List.isPrefixOf_iff_prefix]

theorem hasPfx_trans {a b c : String} (h1 : hasPfx a b = true) (h2 : hasPfx b c = true) :
    hasPfx a c = true :=
  hasPfx_iff.2 ((hasPfx_iff.1 h1).trans (hasPfx_iff.1 h2))

theorem dropLast_isPrefix {α : Type _} (l : List α) : l.dropLast <+: l := by
  match l with
  | [] => exact List.prefix_refl _
  | a :: l' =>
    refine ⟨[(a :: l').getLast (by simp)], ?_⟩
    exact List.dropLast_append_getLast (by simp)

/-- The scan prefix of `GetExecutions` for a job name. -/
def epfx (J : String) : String := trimSuffixSlash ("executions/" ++ J)

theorem epfx_data_isPfxOf (J : String) : (epfx J).data <+: ("executions/" ++ J).data := by
  unfold epfx trimSuffixSlash
  split
  · exact dropLast_isPrefix _
  · exact List.prefix_refl _

theorem epfx_data_length (J : String) :
    (epfx J).data.length ≤ ("executions/" ++ J).data.length :=
  (epfx_data_isPfxOf J).length_le

theorem execKey_data (e : Execution) :
    (execKey e).data = ("executions/" ++ e.JobName).data ++ '/' :: e.Key.data := by
  unfold execKey
  rw [show "executions/" ++ e.JobName ++ "/" ++ e.Key
      = ("executions/" ++ e.JobName) ++ ("/" ++ e.Key) by
    simp [String.append_assoc]]
  rw [strData_append, strData_append]
  rfl

theorem hasPfx_epfx_execKey (e : Execution) : hasPfx (epfx e.JobName) (execKey e) = true := by
  rw [hasPfx_iff, execKey_data]
  exact (epfx_data_isPfxOf e.JobName).trans (List.prefix_append _ _)

theorem trimDirectoryKey_data_length (k : String) :
    k.data.length - 1 ≤ (trimDirectoryKey k).data.length := by
  unfold trimDirectoryKey
  split
  · simp
  · omega

theorem trimDirectoryKey_ne_epfx (e : Execution) (hk : e.Key ≠ "") :
    (trimDirectoryKey (execKey e) != epfx e.JobName) = true := by
  rw [bne_iff_ne]
  intro h
  have hlen := congrArg (fun s : String => s.data.length) h
  simp only at hlen
  have h1 := trimDirectoryKey_data_length (execKey e)
  have h2 := epfx_data_length e.JobName
  rw [hlen] at h1
  rw [execKey_data] at h1
  simp only [List.length_append, List.length_cons] at h1
  have h3 : e.Key.data.length ≠ 0 := by
    intro h0
    exact hk (strData_ne_nil_iff.1 (List.length_eq_zero.1 h0))
  omega

/-! ## Key-value lemmas -/

theorem find?_filter_of_imp {α : Type _} (l : List α) (p q : α → Bool)
    (h : ∀ x, p x = true → q x = true) : (l.filter q).find? p = l.find? p := by
  induction l with
  | nil => rfl
  | cons x rest ih =>
    by_cases hq : q x = true
    · simp only [List.filter_cons, hq, if_true, List.find?_cons]
      cases hp : p x <;> simp only [ih]
    · have hp : p x = false := by
        cases hpx : p x
        · rfl
        · exact absurd (h x hpx) hq
      have hq' : q x = false := by
        cases hqx : q x
        · rfl
        · exact absurd hqx hq
      simp [List.filter_cons, hq', List.find?_cons, hp, ih]

theorem dbGet_dbSet_self (st : State) (k : String) (v : Value) :
    dbGet (dbSet st k v) k = some v := by
  unfold dbGet dbSet
  split
  · rename_i hany
    rw [List.find?_map]
    have hfun : ((fun kv : String × Value => kv.1 == k) ∘
        fun kv => if kv.1 == k then (k, v) else kv) = fun kv : String × Value => kv.1 == k := by
      funext kv
      by_cases hh : kv.1 = k <;> simp [hh]
    rw [hfun]
    rw [List.any_eq_true] at hany
    obtain ⟨kv0, hmem, hp⟩ := hany
    have hsome : (st.find? (fun kv => kv.1 == k)).isSome := by
      rw [List.find?_isSome]; exact ⟨kv0, hmem, hp⟩
    obtain ⟨kv1, hfind⟩ := Option.isSome_iff_exists.1 hsome
    have hk1 : kv1.1 = k := by
      have := List.find?_some (p := fun kv : String × Value => kv.1 == k) hfind
      simpa using this
    rw [hfind]
    simp [hk1]
  · rw [List.find?_append]
    rename_i hany
    have hnone : st.find? (fun kv => kv.1 == k) = none := by
      rw [List.find?_eq_none]
      intro x hx hpx
      exact hany (List.any_eq_true.2 ⟨x, hx, hpx⟩)
    rw [hnone]
    simp

theorem dbGet_dbSet_ne (st : State) (k k' : String) (v : Value) (h : k' ≠ k) :
    dbGet (dbSet st k v) k' = dbGet st k' := by
  unfold dbGet dbSet
  split
  · rw [List.find?_map]
    have hfun : ((fun kv : String × Value => kv.1 == k') ∘
        fun kv => if kv.1 == k then (k, v) else kv) = fun kv : String × Value => kv.1 == k' := by
      funext kv
      by_cases hh : kv.1 = k
      · have h2 : (k == k') = false := by simp; exact fun he => absurd he.symm h
        simp [hh, h2]
      · simp [hh]
    rw [hfun]
    cases hfind : st.find? (fun kv => kv.1 == k') with
    | none => rfl
    | some kv1 =>
      have hk1 : kv1.1 = k' := by
        have := List.find?_some (p := fun kv : String × Value => kv.1 == k') hfind
        simpa using this
      simp only [Option.map_some']
      rw [if_neg (by simp only [hk1, beq_iff_eq]; exact h)]
  · rw [List.find?_append]
    have h1 : List.find? (fun kv => kv.1 == k') [(k, v)] = none := by
      simp; exact fun he => absurd he.symm h
    rw [h1]
    simp

theorem dbGet_dbDelete_self (st : State) (k : String) : dbGet (dbDelete st k) k = none := by
  unfold dbGet dbDelete
  have : (st.filter (fun kv => kv.1 != k)).find? (fun kv => kv.1 == k) = none := by
    rw [List.find?_eq_none]
    intro x hx
    have := (List.mem_filter.1 hx).2
    simp only [bne_iff_ne, ne_eq, decide_eq_true_eq] at this
    simp [this]
  rw [this]
  rfl

theorem dbGet_dbDelete_ne (st : State) (k k' : String) (h : k' ≠ k) :
    dbGet (dbDelete st k) k' = dbGet st k' := by
  unfold dbGet dbDelete
  rw [find?_filter_of_imp]
  intro x hx
  have hx' : x.1 = k' := by simpa using hx
  simp [hx', h]

theorem mem_of_dbGet_eq_some {st : State} {k : String} {v : Value}
    (h : dbGet st k = some v) : (k, v) ∈ st := by
  unfold dbGet at h
  cases hfind : st.find? (fun kv => kv.1 == k) with
  | none => rw [hfind] at h; simp at h
  | some kv0 =>
    rw [hfind] at h
    simp only [Option.map_some', Option.some.injEq] at h
    have hk : kv0.1 = k := by
      have := List.find?_some (p := fun kv : String × Value => kv.1 == k) hfind
      simpa using this
    have hmem := List.mem_of_find?_eq_some hfind
    have : kv0 = (k, v) := by
      cases kv0; simp only [Prod.mk.injEq]; exact ⟨hk, h⟩
    exact this ▸ hmem

theorem dbGet_eq_some_of_mem {st : State} {k : String} {v : Value}
    (hn : (st.map Prod.fst).Nodup) (h : (k, v) ∈ st) : dbGet st k = some v := by
  induction st with
  | nil => simp at h
  | cons kv rest ih =>
    simp only [List.map_cons, List.nodup_cons] at hn
    rcases List.mem_cons.1 h with heq | hmem
    · subst heq
      unfold dbGet
      simp [List.find?_cons]
    · have hk : kv.1 ≠ k := by
        intro he
        exact hn.1 (he ▸ (List.mem_map.2 ⟨(k, v), hmem, rfl⟩))
      unfold dbGet at *
      have hb : (kv.1 == k) = false := by simp [hk]
      simp only [List.find?_cons, hb]
      exact ih hn.2 hmem

theorem dbGet_eq_none_iff {st : State} {k : String} :
    dbGet st k = none ↔ (st.any fun kv => kv.1 == k) = false := by
  unfold dbGet
  rw [Option.map_eq_none', List.find?_eq_none]
  constructor
  · intro h
    cases hany : st.any fun kv => kv.1 == k
    · rfl
    · obtain ⟨x, hx, hp⟩ := List.any_eq_true.1 hany
      exact absurd hp (h x hx)
  · intro h x hx hp
    have hT : (st.any fun kv => kv.1 == k) = true := List.any_eq_true.2 ⟨x, hx, hp⟩
    rw [h] at hT
    simp at hT

theorem dbSet_of_absent {st : State} {k : String} (v : Value)
    (h : dbGet st k = none) : dbSet st k v = st ++ [(k, v)] := by
  unfold dbSet
  rw [if_neg]
  rw [dbGet_eq_none_iff] at h
  simp [h]

theorem keys_dbSet_present {st : State} {k : String} (v : Value)
    (h : (st.any fun kv => kv.1 == k) = true) :
    (dbSet st k v).map Prod.fst = st.map Prod.fst := by
  unfold dbSet
  rw [if_pos h, List.map_map]
  apply List.map_congr_left
  intro kv _
  by_cases hh : kv.1 = k <;> simp [hh]

theorem nodupKeys_dbSet {st : State} (hn : (st.map Prod.fst).Nodup) (k : String) (v : Value) :
    ((dbSet st k v).map Prod.fst).Nodup := by
  cases hany : st.any fun kv => kv.1 == k
  · unfold dbSet
    rw [if_neg (by simp [hany])]
    rw [List.map_append]
    rw [List.nodup_append]
    refine ⟨hn, by simp, ?_⟩
    intro x hx
    simp only [List.map_cons, List.map_nil, List.mem_singleton]
    intro he
    obtain ⟨kv0, hkv0, hfst⟩ := List.mem_map.1 hx
    have hT : (st.any fun kv => kv.1 == k) = true :=
      List.any_eq_true.2 ⟨kv0, hkv0, by simp [hfst, he]⟩
    rw [hany] at hT
    simp at hT
  · rw [keys_dbSet_present v hany]
    exact hn

theorem nodupKeys_dbDelete {st : State} (hn : (st.map Prod.fst).Nodup) (k : String) :
    ((dbDelete st k).map Prod.fst).Nodup :=
  ((List.filter_sublist st).map Prod.fst).nodup hn

theorem wf_dbSet {st : State} (h : WF st) {k : String} {v : Value}
    (hok : entryOk (k, v)) : WF (dbSet st k v) := by
  refine ⟨nodupKeys_dbSet h.1 k v, ?_⟩
  intro kv hkv
  unfold dbSet at hkv
  split at hkv
  · obtain ⟨kv0, hkv0, heq⟩ := List.mem_map.1 hkv
    by_cases hh : kv0.1 = k
    · rw [← heq]
      simp only [hh, beq_self_eq_true, if_true]
      exact hok
    · rw [← heq]
      have hb : (kv0.1 == k) = false := by simp [hh]
      simp only [hb]
      simp only [Bool.false_eq_true, if_false]
      exact h.2 kv0 hkv0
  · rcases List.mem_append.1 hkv with hmem | hmem
    · exact h.2 kv hmem
    · rw [List.mem_singleton.1 hmem]
      exact hok

theorem wf_dbDelete {st : State} (h : WF st) (k : String) : WF (dbDelete st k) := by
  refine ⟨nodupKeys_dbDelete h.1 k, ?_⟩
  intro kv hkv
  exact h.2 kv (List.mem_filter.1 hkv).1

/-! ## Scan lemmas -/

/-- The predicate selecting the entries returned by the execution scan
for job `J` (prefix match, container marker skipped). -/
def scanPred (J : String) (kv : String × Value) : Bool :=
  hasPfx (epfx J) kv.1 && trimDirectoryKey kv.1 != epfx J

/-- The entries returned by the execution scan for job `J`. -/
def scanned (st : State) (J : String) : List (String × Value) := st.filter (scanPred J)

theorem list_exec_eq (st : State) (J : String) :
    list st ("executions/" ++ J) true =
      if st.any (fun kv => hasPfx (epfx J) kv.1) then .ok (scanned st J)
      else .error .notFound := by
  unfold list scanned scanPred epfx
  cases hany : st.any fun kv => hasPfx (trimSuffixSlash ("executions/" ++ J)) kv.1 <;>
    simp [hany]

theorem epfx_data_len (J : String) : 10 ≤ (epfx J).data.length := by
  have h11 : ("executions/" ++ J).data.length = 11 + J.data.length := by
    rw [strData_append, List.length_append]
    have he : ("executions/" : String).data.length = 11 := rfl
    omega
  unfold epfx trimSuffixSlash
  split
  · show 10 ≤ (("executions/" ++ J).data.dropLast).length
    rw [List.length_dropLast]
    omega
  · omega

theorem epfx_ne_nil (J : String) : (epfx J).data ≠ [] := by
  intro h
  have := epfx_data_len J
  rw [h] at this
  simp at this

theorem epfx_head_e (J : String) :
    ∃ t, (epfx J).data = 'e' :: t := by
  obtain ⟨t, ht⟩ := epfx_data_isPfxOf J
  have hne := epfx_ne_nil J
  cases hd : (epfx J).data with
  | nil => exact absurd hd hne
  | cons c rest =>
    rw [hd] at ht
    have hE : ("executions/" ++ J).data = 'e' :: ("xecutions/" ++ J).data := by
      rw [strData_append, strData_append]
      rfl
    rw [hE] at ht
    simp only [List.cons_append, List.cons.injEq] at ht
    exact ⟨rest, congrArg (fun x => List.cons x rest) ht.1⟩

theorem hasPfx_epfx_jobsKey (J s : String) : hasPfx (epfx J) ("jobs/" ++ s) = false := by
  cases h : hasPfx (epfx J) ("jobs/" ++ s)
  · rfl
  · exfalso
    obtain ⟨t, ht⟩ := hasPfx_iff.1 h
    obtain ⟨t', ht'⟩ := epfx_head_e J
    rw [ht', strData_append] at ht
    have hj : ("jobs/" : String).data = 'j' :: "obs/".data := rfl
    rw [hj] at ht
    simp at ht

theorem scanPred_execKey {J : String} (e : Execution) (hJ : e.JobName = J)
    (hk : e.Key ≠ "") : scanPred J (execKey e, Value.exec e) = true := by
  unfold scanPred
  subst hJ
  rw [hasPfx_epfx_execKey, trimDirectoryKey_ne_epfx e hk]
  rfl

/-- Under a well-formed store the execution scan decodes: the scanned
entries are exactly the entries of the returned executions. -/
theorem scanned_spec {st : State} (J : String) (hwf : ∀ kv ∈ st, entryOk kv) :
    ∃ es, unmarshalExecutions (scanned st J) = .ok es ∧
      scanned st J = es.map (fun e => (execKey e, Value.exec e)) := by
  induction st with
  | nil => exact ⟨[], rfl, rfl⟩
  | cons kv rest ih =>
    obtain ⟨es, hok, heq⟩ := ih (fun x hx => hwf x (List.mem_cons_of_mem kv hx))
    have hkv := hwf kv (List.mem_cons_self kv rest)
    by_cases hp : scanPred J kv = true
    · obtain ⟨k, v⟩ := kv
      cases v with
      | job j =>
        exfalso
        have hk : k = "jobs/" ++ j.Name := hkv.1
        unfold scanPred at hp
        rw [hk] at hp
        rw [hasPfx_epfx_jobsKey] at hp
        simp at hp
      | marker => exact (hkv : False).elim
      | exec e =>
        have hk : k = execKey e := hkv.1
        refine ⟨e :: es, ?_, ?_⟩
        · unfold scanned at hok ⊢
          rw [List.filter_cons, if_pos hp]
          unfold unmarshalExecutions at hok ⊢
          rw [List.mapM_cons]
          simp only [hok]
          rfl
        · unfold scanned at heq ⊢
          rw [List.filter_cons, if_pos hp, heq, hk]
          rfl
    · have hp' : scanPred J kv = false := by
        cases hpx : scanPred J kv
        · rfl
        · exact absurd hpx hp
      refine ⟨es, ?_, ?_⟩
      · unfold scanned at hok ⊢
        rw [List.filter_cons, if_neg (by simp [hp'])]
        exact hok
      · unfold scanned at heq ⊢
        rw [List.filter_cons, if_neg (by simp [hp'])]
        exact heq

theorem getExecutions_ok {st : State} {J : String} (hwf : ∀ kv ∈ st, entryOk kv)
    (hfound : (st.any fun kv => hasPfx (epfx J) kv.1) = true) :
    ∃ es, GetExecutions st J = .ok es ∧
      scanned st J = es.map (fun e => (execKey e, Value.exec e)) := by
  obtain ⟨es, hok, heq⟩ := scanned_spec J hwf
  refine ⟨es, ?_, heq⟩
  unfold GetExecutions
  rw [list_exec_eq, if_pos hfound]
  exact hok

theorem getExecutions_notFound {st : State} {J : String}
    (h : (st.any fun kv => hasPfx (epfx J) kv.1) = false) :
    GetExecutions st J = .error .notFound := by
  unfold GetExecutions
  rw [list_exec_eq, if_neg (by simp [h])]

/-! ## SetJob lemmas -/

theorem ite_gt_eq_max (a b : Int) : (if a > b then a else b) = max a b := by
  split_ifs with h
  · exact (max_eq_left h.le).symm
  · exact (max_eq_right (not_lt.1 h)).symm

theorem getExisting_of_dbGet {st : State} {name : String} {j : Job}
    (h : dbGet st ("jobs/" ++ name) = some (.job j)) :
    getExistingJob st name = .ok (some j) := by
  unfold getExistingJob GetJob
  rw [h]

theorem getExisting_of_dbGet_none {st : State} {name : String}
    (h : dbGet st ("jobs/" ++ name) = none) :
    getExistingJob st name = .ok none := by
  unfold getExistingJob GetJob
  rw [h]

theorem mergeExisting_parentJob (job : Job) (ej : Option Job) (b : Bool) :
    (mergeExisting job ej b).ParentJob = job.ParentJob := by
  cases ej <;> rfl

theorem mergeExisting_name (job : Job) (ej : Option Job) (b : Bool) :
    (mergeExisting job ej b).Name = job.Name := by
  cases ej <;> rfl

theorem mergeExisting_idem (job : Job) (ej : Option Job) (b : Bool) :
    mergeExisting job (some (mergeExisting job ej b)) b = mergeExisting job ej b := by
  cases ej with
  | none =>
    show mergeExisting job (some job) b = job
    cases job with
    | mk n s pj dj c tz sc ec ls le =>
      unfold mergeExisting
      simp
  | some e =>
    cases job with
    | mk n s pj dj c tz sc ec ls le =>
      cases e with
      | mk n2 s2 pj2 dj2 c2 tz2 sc2 ec2 ls2 le2 =>
        unfold mergeExisting
        simp only [Job.mk.injEq, true_and, and_true, eq_self_iff_true]
        refine ⟨?_, ?_, ?_, ?_, ?_⟩ <;> split_ifs <;> first | rfl | omega

/-- The shape of a successful `SetJob`: the final state is the merged
record written at the job's key over some intermediate state. -/
theorem setJob_ok_shape (env : Env) (fuel : Nat) (job : Job) (b : Bool) (st : State)
    (ej : Option Job)
    (hval : validateJob env job = none)
    (hej : getExistingJob st job.Name = .ok ej)
    (hok : (SetJob env (fuel + 1) job b st).1 = none) :
    ∃ st2, SetJob env (fuel + 1) job b st =
      (none, dbSet st2 ("jobs/" ++ job.Name) (Value.job (mergeExisting job ej b))) := by
  revert hok
  unfold SetJob
  simp only [hval, hej]
  split
  · split
    · intro hok; simp at hok
    · split
      · intro hok; simp at hok
      · rename_i st2 _
        intro _
        exact ⟨st2, rfl⟩
  · intro _
    exact ⟨st, rfl⟩

theorem setJob_nodup (env : Env) : ∀ (fuel : Nat) (job : Job) (b : Bool) (st : State),
    (st.map Prod.fst).Nodup → (((SetJob env fuel job b st).2).map Prod.fst).Nodup := by
  intro fuel
  induction fuel with
  | zero =>
    intro job b st hn
    unfold SetJob
    split
    · exact hn
    · exact hn
  | succ fuel ih =>
    intro job b st hn
    unfold SetJob
    split
    · exact hn
    · cases hejr : getExistingJob st job.Name with
      | error e => simp only [hejr]; exact hn
      | ok ej =>
        simp only [hejr]
        split
        · have hrm : ∀ st', (st'.map Prod.fst).Nodup →
              (((removeFromParentAux (SetJob env fuel) ej st').2).map Prod.fst).Nodup := by
            intro st' hn'
            cases ej with
            | none => exact hn'
            | some c =>
              simp only [removeFromParentAux]
              by_cases hpj : c.ParentJob = ""
              · rw [if_pos hpj]; exact hn'
              · rw [if_neg hpj]
                cases hg : GetJob st' c.ParentJob with
                | error e => simp only [hg]; exact hn'
                | ok parent => simp only [hg]; exact ih _ _ _ hn'
          have had : ∀ (j : Job) (st' : State), (st'.map Prod.fst).Nodup →
              (((addToParentAux (SetJob env fuel) j st').2).map Prod.fst).Nodup := by
            intro j st' hn'
            simp only [addToParentAux]
            by_cases hpj : j.ParentJob = ""
            · rw [if_pos hpj]; exact hn'
            · rw [if_neg hpj]
              cases hg : GetJob st' j.ParentJob with
              | error e => simp only [hg]; exact hn'
              | ok parent => simp only [hg]; exact ih _ _ _ hn'
          split
          · rename_i heq
            have := hrm st hn
            rw [heq] at this
            exact this
          · rename_i st1 heq
            have h1 := hrm st hn
            rw [heq] at h1
            split
            · rename_i heq2
              have := had (mergeExisting job ej b) st1 h1
              rw [heq2] at this
              exact this
            · rename_i st2 heq2
              have h2 := had (mergeExisting job ej b) st1 h1
              rw [heq2] at h2
              exact nodupKeys_dbSet h2 _ _
        · exact nodupKeys_dbSet hn _ _

theorem filter_key_length_eq_one {st : State} {k : String} {v : Value}
    (hn : (st.map Prod.fst).Nodup) (h : dbGet st k = some v) :
    (st.filter (fun kv => kv.1 == k)).length = 1 := by
  have hmem : (k, v) ∈ st := mem_of_dbGet_eq_some h
  have hk : k ∈ st.map Prod.fst := List.mem_map.2 ⟨(k, v), hmem, rfl⟩
  have hcount : (st.map Prod.fst).count k = 1 := List.count_eq_one_of_mem hn hk
  calc (st.filter (fun kv => kv.1 == k)).length
      = st.countP (fun kv => kv.1 == k) := (List.countP_eq_length_filter _ _).symm
    _ = (st.map Prod.fst).countP (fun x => x == k) := by rw [List.countP_map]; rfl
    _ = (st.map Prod.fst).count k := rfl
    _ = 1 := hcount

/-! ## Claim theorems -/

/-- C6: for every job `j` with `j.ParentJob = j.Name`, `SetJob` (with
either value of `copyDependentJobs`) returns the self-parent validation
error and leaves the entire store unchanged — validation runs before
any write. -/
theorem C6_self_parent_rejected (env : Env) (fuel : Nat) (j : Job) (b : Bool) (st : State)
    (h : j.ParentJob = j.Name) :
    SetJob env fuel j b st = (some Err.sameParent, st) ∧
      Err.sameParent.isValidation = true := by
  refine ⟨?_, rfl⟩
  have hv : validateJob env j = some Err.sameParent := by
    unfold validateJob
    rw [if_pos h]
  cases fuel <;> · unfold SetJob; rw [hv]

/-- C6 witness. -/
theorem C6_self_parent_rejected_witness :
    SetJob ⟨fun _ => true, fun _ => true⟩ 2
        ⟨"a", "", "a", [], "", "", 0, 0, 0, 0⟩ true [] =
      (some Err.sameParent, []) ∧ Err.sameParent.isValidation = true :=
  C6_self_parent_rejected ⟨fun _ => true, fun _ => true⟩ 2
    ⟨"a", "", "a", [], "", "", 0, 0, 0, 0⟩ true [] rfl

/-- C10: when the out-of-order guard discards the write (the stored
execution at the key has a strictly later `FinishedAt`), `SetExecution`
still returns the computed key and no error — indistinguishable from a
successful save at the public interface. -/
theorem C10_discarded_write_returns_key (e p : Execution) (st : State)
    (hstored : dbGet st (execKey e) = some (.exec p))
    (hlater : p.FinishedAt > e.FinishedAt) :
    (SetExecution e st).1 = none ∧ (SetExecution e st).2.1 = execKey e := by
  unfold SetExecution
  simp only [hstored, if_pos hlater]
  constructor <;> trivial

/-- C10 witness. -/
theorem C10_discarded_write_returns_key_witness :
    (SetExecution ⟨"j", "k", 0, 0, 1, true⟩
        [("executions/j/k", .exec ⟨"j", "k", 0, 0, 5, true⟩)]).1 = none ∧
      (SetExecution ⟨"j", "k", 0, 0, 1, true⟩
        [("executions/j/k", .exec ⟨"j", "k", 0, 0, 5, true⟩)]).2.1 =
        execKey ⟨"j", "k", 0, 0, 1, true⟩ :=
  C10_discarded_write_returns_key ⟨"j", "k", 0, 0, 1, true⟩ ⟨"j", "k", 0, 0, 5, true⟩
    [("executions/j/k", .exec ⟨"j", "k", 0, 0, 5, true⟩)] (by decide) (by decide)

end Dkron

namespace Dkron

/-- C5: upserting over a stored job merges the status fields: the stored
`SuccessCount`/`ErrorCount` become the maximum of stored and incoming,
`LastSuccess`/`LastError` the later of the two timestamps; in
particular the stored values never decrease. -/
theorem C5_counters_merge_max (env : Env) (fuel : Nat) (job ej : Job) (b : Bool) (st : State)
    (hstored : dbGet st ("jobs/" ++ job.Name) = some (.job ej))
    (hval : validateJob env job = none)
    (hok : (SetJob env (fuel + 1) job b st).1 = none) :
    ∃ m, dbGet (SetJob env (fuel + 1) job b st).2 ("jobs/" ++ job.Name) = some (.job m) ∧
      m.SuccessCount = max ej.SuccessCount job.SuccessCount ∧
      m.ErrorCount = max ej.ErrorCount job.ErrorCount ∧
      m.LastSuccess = max ej.LastSuccess job.LastSuccess ∧
      m.LastError = max ej.LastError job.LastError ∧
      ej.SuccessCount ≤ m.SuccessCount ∧ ej.ErrorCount ≤ m.ErrorCount := by
  obtain ⟨st2, hshape⟩ :=
    setJob_ok_shape env fuel job b st (some ej) hval (getExisting_of_dbGet hstored) hok
  refine ⟨mergeExisting job (some ej) b, ?_, ?_, ?_, ?_, ?_, ?_, ?_⟩
  · rw [hshape]
    exact dbGet_dbSet_self _ _ _
  · show (if ej.SuccessCount > job.SuccessCount then ej.SuccessCount else job.SuccessCount) = _
    exact ite_gt_eq_max _ _
  · show (if ej.ErrorCount > job.ErrorCount then ej.ErrorCount else job.ErrorCount) = _
    exact ite_gt_eq_max _ _
  · show (if ej.LastSuccess > job.LastSuccess then ej.LastSuccess else job.LastSuccess) = _
    exact ite_gt_eq_max _ _
  · show (if ej.LastError > job.LastError then ej.LastError else job.LastError) = _
    exact ite_gt_eq_max _ _
  · show ej.SuccessCount ≤
      (if ej.SuccessCount > job.SuccessCount then ej.SuccessCount else job.SuccessCount)
    split_ifs <;> omega
  · show ej.ErrorCount ≤
      (if ej.ErrorCount > job.ErrorCount then ej.ErrorCount else job.ErrorCount)
    split_ifs <;> omega

/-- C5 witness. -/
theorem C5_counters_merge_max_witness :
    ∃ m, dbGet (SetJob ⟨fun _ => true, fun _ => true⟩ 1
        ⟨"x", "s", "", [], "", "", 1, 9, 1, 9⟩ true
        [("jobs/x", .job ⟨"x", "s", "", [], "", "", 5, 5, 5, 5⟩)]).2 ("jobs/" ++ "x") =
        some (.job m) ∧
      m.SuccessCount = max (5 : Int) 1 ∧ m.ErrorCount = max (5 : Int) 9 ∧
      m.LastSuccess = max (5 : Int) 1 ∧ m.LastError = max (5 : Int) 9 ∧
      (5 : Int) ≤ m.SuccessCount ∧ (5 : Int) ≤ m.ErrorCount :=
  C5_counters_merge_max ⟨fun _ => true, fun _ => true⟩ 0
    ⟨"x", "s", "", [], "", "", 1, 9, 1, 9⟩ ⟨"x", "s", "", [], "", "", 5, 5, 5, 5⟩ true
    [("jobs/x", .job ⟨"x", "s", "", [], "", "", 5, 5, 5, 5⟩)]
    (by decide) (by decide) (by decide)

end Dkron

namespace Dkron

/-- C9: `SetJob` is idempotent.  After a successful upsert, repeating
the identical call succeeds, leaves exactly one record under
`jobs/<Name>`, and the stored record after the second call is identical
to the record after the first call. -/
theorem C9_setJob_idempotent (env : Env) (fuel : Nat) (job : Job) (b : Bool) (st : State)
    (ej : Option Job)
    (hn : (st.map Prod.fst).Nodup)
    (hval : validateJob env job = none)
    (hej : getExistingJob st job.Name = .ok ej)
    (hok : (SetJob env (fuel + 1) job b st).1 = none) :
    (SetJob env (fuel + 1) job b (SetJob env (fuel + 1) job b st).2).1 = none ∧
      (((SetJob env (fuel + 1) job b (SetJob env (fuel + 1) job b st).2).2).filter
        (fun kv => kv.1 == "jobs/" ++ job.Name)).length = 1 ∧
      dbGet (SetJob env (fuel + 1) job b (SetJob env (fuel + 1) job b st).2).2
          ("jobs/" ++ job.Name) =
        dbGet (SetJob env (fuel + 1) job b st).2 ("jobs/" ++ job.Name) := by
  obtain ⟨st2, hshape⟩ := setJob_ok_shape env fuel job b st ej hval hej hok
  have h1 : dbGet (SetJob env (fuel + 1) job b st).2 ("jobs/" ++ job.Name) =
      some (.job (mergeExisting job ej b)) := by
    rw [hshape]
    exact dbGet_dbSet_self _ _ _
  have hn1 : (((SetJob env (fuel + 1) job b st).2).map Prod.fst).Nodup :=
    setJob_nodup env (fuel + 1) job b st hn
  have hej2 : getExistingJob (SetJob env (fuel + 1) job b st).2 job.Name =
      .ok (some (mergeExisting job ej b)) := getExisting_of_dbGet h1
  generalize hp1 : (SetJob env (fuel + 1) job b st).2 = p1 at h1 hn1 hej2 ⊢
  have hcall2 : SetJob env (fuel + 1) job b p1 =
      (none, dbSet p1 ("jobs/" ++ job.Name)
        (.job (mergeExisting job (some (mergeExisting job ej b)) b))) := by
    unfold SetJob
    simp only [hval, hej2, mergeExisting_parentJob]
    simp
  rw [hcall2, mergeExisting_idem]
  refine ⟨rfl, ?_, ?_⟩
  · exact filter_key_length_eq_one (nodupKeys_dbSet hn1 _ _) (dbGet_dbSet_self _ _ _)
  · rw [dbGet_dbSet_self, h1]

/-- C9 witness. -/
theorem C9_setJob_idempotent_witness :
    (SetJob ⟨fun _ => true, fun _ => true⟩ 1 ⟨"x", "s", "", [], "", "", 0, 0, 0, 0⟩ true
        (SetJob ⟨fun _ => true, fun _ => true⟩ 1 ⟨"x", "s", "", [], "", "", 0, 0, 0, 0⟩
          true []).2).1 = none ∧
      (((SetJob ⟨fun _ => true, fun _ => true⟩ 1 ⟨"x", "s", "", [], "", "", 0, 0, 0, 0⟩ true
        (SetJob ⟨fun _ => true, fun _ => true⟩ 1 ⟨"x", "s", "", [], "", "", 0, 0, 0, 0⟩
          true []).2).2).filter (fun kv => kv.1 == "jobs/" ++ "x")).length = 1 ∧
      dbGet (SetJob ⟨fun _ => true, fun _ => true⟩ 1 ⟨"x", "s", "", [], "", "", 0, 0, 0, 0⟩ true
          (SetJob ⟨fun _ => true, fun _ => true⟩ 1 ⟨"x", "s", "", [], "", "", 0, 0, 0, 0⟩
            true []).2).2 ("jobs/" ++ "x") =
        dbGet (SetJob ⟨fun _ => true, fun _ => true⟩ 1 ⟨"x", "s", "", [], "", "", 0, 0, 0, 0⟩
          true []).2 ("jobs/" ++ "x") :=
  C9_setJob_idempotent ⟨fun _ => true, fun _ => true⟩ 0 ⟨"x", "s", "", [], "", "", 0, 0, 0, 0⟩
    true [] none List.nodup_nil (by decide) (by rfl) (by decide)

end Dkron


namespace Dkron

theorem unmarshal_error_decode {l : List (String × Value)} :
    ∀ {e : Err}, unmarshalExecutions l = .error e → e = Err.decode := by
  induction l with
  | nil =>
    intro e h
    unfold unmarshalExecutions at h
    rw [List.mapM_nil] at h
    exact Except.noConfusion h
  | cons kv rest ih =>
    intro e h
    unfold unmarshalExecutions at h
    rw [List.mapM_cons] at h
    cases hv : kv.2 with
    | exec x =>
      rw [hv] at h
      cases hrest : unmarshalExecutions rest with
      | error e2 =>
        unfold unmarshalExecutions at hrest
        rw [hrest] at h
        simp only [bind, Except.bind] at h
        cases h
        exact ih (by unfold unmarshalExecutions; exact hrest)
      | ok es =>
        unfold unmarshalExecutions at hrest
        rw [hrest] at h
        simp only [bind, Except.bind, pure, Except.pure] at h
        exact Except.noConfusion h
    | job j =>
      rw [hv] at h
      simp only [bind, Except.bind] at h
      cases h
      rfl
    | marker =>
      rw [hv] at h
      simp only [bind, Except.bind] at h
      cases h
      rfl

theorem getExecutions_eq_unmarshal {st : State} {J : String}
    (hany : (st.any fun kv => hasPfx (epfx J) kv.1) = true) :
    GetExecutions st J = unmarshalExecutions (scanned st J) := by
  unfold GetExecutions
  rw [list_exec_eq, if_pos hany]

theorem strMk_data (s : String) : String.mk s.data = s := by
  cases s
  rfl

theorem trimDirectoryKey_append_slash (s : String) : trimDirectoryKey (s ++ "/") = s := by
  have hd : (s ++ "/").data = s.data ++ ['/'] := by
    rw [strData_append]
  have hdir : isDirectoryKey (s ++ "/") = true := by
    unfold isDirectoryKey
    rw [hd]
    simp
  unfold trimDirectoryKey
  rw [hdir, if_pos rfl, hd, List.dropLast_concat]

theorem hasPfx_append (a b : String) : hasPfx a (a ++ b) = true := by
  rw [hasPfx_iff, strData_append]
  exact List.prefix_append _ _

/-- C7: `GetExecutions jobName` returns NotFound exactly when the scan
finds no key with the scan prefix (`epfx jobName`, i.e.
`executions/<jobName>` with a trailing separator trimmed, as the code
computes it); when some key matches but every matching key is the
container-marker key (the prefix plus a trailing `/`), it returns the
empty sequence instead of NotFound. -/
theorem C7_notFound_iff_scan_empty (st : State) (J : String) :
    (GetExecutions st J = .error .notFound ↔
      ∀ kv ∈ st, hasPfx (epfx J) kv.1 = false) ∧
    ((∃ kv ∈ st, hasPfx (epfx J) kv.1 = true) →
      (∀ kv ∈ st, hasPfx (epfx J) kv.1 = true → kv.1 = epfx J ++ "/") →
      GetExecutions st J = .ok []) := by
  constructor
  · cases hany : st.any fun kv => hasPfx (epfx J) kv.1
    · constructor
      · intro _ kv hkv
        have := List.any_eq_false.1 hany kv hkv
        cases hp : hasPfx (epfx J) kv.1
        · rfl
        · exact absurd hp this
      · intro _
        exact getExecutions_notFound hany
    · constructor
      · intro hnf
        exfalso
        rw [getExecutions_eq_unmarshal hany] at hnf
        have := unmarshal_error_decode hnf
        exact Err.noConfusion this
      · intro hall
        obtain ⟨kv, hkv, hp⟩ := List.any_eq_true.1 hany
        rw [hall kv hkv] at hp
        cases hp
  · intro hex hmarker
    have hany : (st.any fun kv => hasPfx (epfx J) kv.1) = true := by
      obtain ⟨kv, hkv, hp⟩ := hex
      exact List.any_eq_true.2 ⟨kv, hkv, hp⟩
    rw [getExecutions_eq_unmarshal hany]
    have hempty : scanned st J = [] := by
      unfold scanned
      rw [List.filter_eq_nil]
      intro kv hkv
      unfold scanPred
      cases hp : hasPfx (epfx J) kv.1
      · simp
      · have hk := hmarker kv hkv hp
        rw [hk, trimDirectoryKey_append_slash]
        simp
    rw [hempty]
    rfl

/-- C7 witness: a store holding only the container-marker key. -/
theorem C7_notFound_iff_scan_empty_witness :
    GetExecutions [("executions/J/", Value.marker)] "J" = .ok [] :=
  (C7_notFound_iff_scan_empty [("executions/J/", Value.marker)] "J").2
    (by decide) (by decide)

end Dkron

namespace Dkron

instance : IsTotal Int (fun a b => b ≤ a) := ⟨fun a b => le_total b a⟩

instance : IsTrans Int (fun a b => b ≤ a) := ⟨fun _ _ _ hab hbc => le_trans hbc hab⟩

/-- C8 (amended): for a job whose execution scan succeeds with at least
one execution, `GetGroupedExecutions` returns the group identifiers
sorted in strictly descending numeric order (they are exactly the
groups occurring among the executions), and `GetLastExecutionGroup`
returns exactly the executions sharing the maximum group identifier;
when the scan succeeds with no executions (container marker only),
`GetLastExecutionGroup` returns the empty sequence.  (When the job has
no stored executions at all, both functions propagate NotFound instead
— see the counterexample.) -/
theorem C8_grouping_descending (st : State) (J : String) :
    (∀ execs : List Execution, GetExecutions st J = .ok execs → execs ≠ [] →
      ∃ gs : List Int,
        GetGroupedExecutions st J =
          .ok (fun g => execs.filter (fun ex => ex.Group = g), gs) ∧
        gs.Sorted (fun a b => a > b) ∧
        (∀ g, g ∈ gs ↔ ∃ e ∈ execs, e.Group = g) ∧
        ∃ gmax, gs.head? = some gmax ∧ (∀ e ∈ execs, e.Group ≤ gmax) ∧
          (∃ e ∈ execs, e.Group = gmax) ∧
          GetLastExecutionGroup st J = .ok (execs.filter (fun ex => ex.Group = gmax))) ∧
    (GetExecutions st J = .ok [] → GetLastExecutionGroup st J = .ok []) := by
  constructor
  · intro execs h hne
    have hgrouped : GetGroupedExecutions st J =
        .ok (fun g => execs.filter (fun ex => ex.Group = g),
          List.insertionSort (fun a b => b ≤ a) (execs.map (fun ex => ex.Group)).dedup) := by
      unfold GetGroupedExecutions
      rw [h]
    obtain ⟨keys, hkeys⟩ : ∃ keys, (execs.map (fun ex => ex.Group)).dedup = keys := ⟨_, rfl⟩
    obtain ⟨gs, hgs⟩ : ∃ gs, List.insertionSort (fun a b : Int => b ≤ a) keys = gs := ⟨_, rfl⟩
    rw [hkeys, hgs] at hgrouped
    have hperm : List.Perm gs keys := by rw [← hgs]; exact List.perm_insertionSort _ _
    have hsorted : gs.Sorted (fun a b => b ≤ a) := by
      rw [← hgs]; exact List.sorted_insertionSort _ _
    have hnodup : gs.Nodup := by
      refine List.Perm.nodup hperm.symm ?_
      rw [← hkeys]
      exact List.nodup_dedup _
    have hmem : ∀ g, g ∈ gs ↔ ∃ e ∈ execs, e.Group = g := by
      intro g
      rw [hperm.mem_iff, ← hkeys, List.mem_dedup, List.mem_map]
    have hsorted_strict : gs.Sorted (fun a b => a > b) := by
      have hp := List.Pairwise.and hsorted hnodup
      exact hp.imp (fun hab => lt_of_le_of_ne hab.1 (Ne.symm hab.2))
    have hgs_ne : gs ≠ [] := by
      intro h0
      obtain ⟨e0, he0⟩ := List.exists_mem_of_ne_nil execs hne
      have : e0.Group ∈ gs := (hmem e0.Group).2 ⟨e0, he0, rfl⟩
      rw [h0] at this
      exact absurd this (List.not_mem_nil _)
    obtain ⟨gmax, rest, hcons⟩ := List.exists_cons_of_ne_nil hgs_ne
    refine ⟨gs, hgrouped, hsorted_strict, hmem, gmax, by rw [hcons]; rfl, ?_, ?_, ?_⟩
    · intro e he
      have hmemg : e.Group ∈ gs := (hmem e.Group).2 ⟨e, he, rfl⟩
      rw [hcons] at hmemg hsorted
      rcases List.mem_cons.1 hmemg with heq | hmemr
      · exact le_of_eq heq
      · exact List.rel_of_sorted_cons hsorted _ hmemr
    · have : gmax ∈ gs := by rw [hcons]; exact List.mem_cons_self _ _
      exact (hmem gmax).1 this
    · unfold GetLastExecutionGroup
      rw [hgrouped, hcons]
  · intro h
    unfold GetLastExecutionGroup GetGroupedExecutions
    rw [h]
    rfl

/-- C8 counterexample to the claim as stated: for a job with no stored
executions, `GetLastExecutionGroup` does not return an empty result; it
propagates NotFound. -/
theorem C8_lastGroup_notFound_counterexample :
    GetLastExecutionGroup [] "J" = .error .notFound ∧
      ∀ es : List Execution, GetLastExecutionGroup [] "J" ≠ .ok es := by
  constructor
  · rfl
  · intro es h
    rw [show GetLastExecutionGroup [] "J" = .error .notFound from rfl] at h
    exact Except.noConfusion h

/-- C8 witness: two executions in groups 1 and 2. -/
theorem C8_grouping_descending_witness :
    ∃ gs : List Int,
      GetGroupedExecutions
          [("executions/J/a", .exec ⟨"J", "a", 1, 0, 0, true⟩),
           ("executions/J/b", .exec ⟨"J", "b", 2, 0, 0, true⟩)] "J" =
        .ok (fun g => [(⟨"J", "a", 1, 0, 0, true⟩ : Execution),
            ⟨"J", "b", 2, 0, 0, true⟩].filter (fun ex => ex.Group = g), gs) ∧
      gs.Sorted (fun a b => a > b) ∧
      (∀ g, g ∈ gs ↔ ∃ e ∈ [(⟨"J", "a", 1, 0, 0, true⟩ : Execution),
          ⟨"J", "b", 2, 0, 0, true⟩], e.Group = g) ∧
      ∃ gmax, gs.head? = some gmax ∧
        (∀ e ∈ [(⟨"J", "a", 1, 0, 0, true⟩ : Execution),
            ⟨"J", "b", 2, 0, 0, true⟩], e.Group ≤ gmax) ∧
        (∃ e ∈ [(⟨"J", "a", 1, 0, 0, true⟩ : Execution),
            ⟨"J", "b", 2, 0, 0, true⟩], e.Group = gmax) ∧
        GetLastExecutionGroup
            [("executions/J/a", .exec ⟨"J", "a", 1, 0, 0, true⟩),
             ("executions/J/b", .exec ⟨"J", "b", 2, 0, 0, true⟩)] "J" =
          .ok ([(⟨"J", "a", 1, 0, 0, true⟩ : Execution),
              ⟨"J", "b", 2, 0, 0, true⟩].filter (fun ex => ex.Group = gmax)) :=
  (C8_grouping_descending
      [("executions/J/a", .exec ⟨"J", "a", 1, 0, 0, true⟩),
       ("executions/J/b", .exec ⟨"J", "b", 2, 0, 0, true⟩)] "J").1
    [⟨"J", "a", 1, 0, 0, true⟩, ⟨"J", "b", 2, 0, 0, true⟩] (by rfl) (by decide)

end Dkron

namespace Dkron

theorem unmarshal_ok_length {l : List (String × Value)} :
    ∀ {es : List Execution}, unmarshalExecutions l = .ok es → es.length = l.length := by
  induction l with
  | nil =>
    intro es h
    unfold unmarshalExecutions at h
    rw [List.mapM_nil] at h
    cases h
    rfl
  | cons kv rest ih =>
    intro es h
    unfold unmarshalExecutions at h
    rw [List.mapM_cons] at h
    cases hv : kv.2 with
    | exec x =>
      rw [hv] at h
      cases hrest : unmarshalExecutions rest with
      | error e2 =>
        unfold unmarshalExecutions at hrest
        rw [hrest] at h
        simp only [bind, Except.bind] at h
        exact Except.noConfusion h
      | ok es2 =>
        unfold unmarshalExecutions at hrest
        rw [hrest] at h
        simp only [bind, Except.bind, pure, Except.pure] at h
        cases h
        have := ih (by unfold unmarshalExecutions; exact hrest)
        simp [this]
    | job j =>
      rw [hv] at h
      simp only [bind, Except.bind] at h
      exact Except.noConfusion h
    | marker =>
      rw [hv] at h
      simp only [bind, Except.bind] at h
      exact Except.noConfusion h

theorem filter_length_mono {α : Type _} (l : List α) (p q : α → Bool)
    (h : ∀ x ∈ l, p x = true → q x = true) :
    (l.filter p).length ≤ (l.filter q).length := by
  induction l with
  | nil => exact Nat.le_refl _
  | cons x rest ih =>
    have ih' := ih (fun y hy => h y (List.mem_cons_of_mem x hy))
    by_cases hp : p x = true
    · have hq := h x (List.mem_cons_self x rest) hp
      simp only [List.filter_cons, hp, hq, if_true, List.length_cons]
      omega
    · have hp' : p x = false := by
        cases hpx : p x
        · rfl
        · exact absurd hpx hp
      simp only [List.filter_cons, hp', Bool.false_eq_true, if_false]
      cases hq : q x
      · simp only [Bool.false_eq_true, if_false]
        exact ih'
      · simp only [if_true, List.length_cons]
        omega

theorem getExecutions_ok_inv {st : State} {J : String} {execs : List Execution}
    (h : GetExecutions st J = .ok execs) :
    unmarshalExecutions (scanned st J) = .ok execs := by
  cases hany : st.any fun kv => hasPfx (epfx J) kv.1
  · rw [getExecutions_notFound hany] at h
    exact Except.noConfusion h
  · rw [getExecutions_eq_unmarshal hany] at h
    exact h

/-- C2 (amended): when the store already holds an execution at the same
key with a strictly later `FinishedAt`, and the job's scan prefix
matches at most `MaxExecutions` stored entries (so the retention pass
has nothing to evict), `SetExecution` leaves the entire store — in
particular the record at that key — unchanged. -/
theorem C2_out_of_order_noop (e p : Execution) (st : State)
    (hstored : dbGet st (execKey e) = some (.exec p))
    (hlater : p.FinishedAt > e.FinishedAt)
    (hcount : (st.filter (fun kv => hasPfx (epfx e.JobName) kv.1)).length ≤ MaxExecutions) :
    (SetExecution e st).2.2 = st ∧
      dbGet (SetExecution e st).2.2 (execKey e) = some (.exec p) := by
  have hst2 : (SetExecution e st).2.2 = st := by
    unfold SetExecution
    simp only [hstored, if_pos hlater]
    cases hge : GetExecutions st e.JobName with
    | error err => simp [hge]
    | ok execs =>
      have hlen : execs.length ≤ MaxExecutions := by
        have h1 := unmarshal_ok_length (getExecutions_ok_inv hge)
        have h2 : (scanned st e.JobName).length ≤
            (st.filter (fun kv => hasPfx (epfx e.JobName) kv.1)).length := by
          apply filter_length_mono
          intro kv _ hp
          unfold scanPred at hp
          rw [Bool.and_eq_true] at hp
          exact hp.1
        omega
      simp only [hge]
      rw [if_neg (by omega)]
  exact ⟨hst2, by rw [hst2]; exact hstored⟩

/-- C2 witness. -/
theorem C2_out_of_order_noop_witness :
    (SetExecution ⟨"j", "k", 0, 0, 1, true⟩
        [("executions/j/k", .exec ⟨"j", "k", 0, 0, 5, true⟩)]).2.2 =
      [("executions/j/k", .exec ⟨"j", "k", 0, 0, 5, true⟩)] ∧
      dbGet (SetExecution ⟨"j", "k", 0, 0, 1, true⟩
          [("executions/j/k", .exec ⟨"j", "k", 0, 0, 5, true⟩)]).2.2
          (execKey ⟨"j", "k", 0, 0, 1, true⟩) =
        some (.exec ⟨"j", "k", 0, 0, 5, true⟩) :=
  C2_out_of_order_noop ⟨"j", "k", 0, 0, 1, true⟩ ⟨"j", "k", 0, 0, 5, true⟩
    [("executions/j/k", .exec ⟨"j", "k", 0, 0, 5, true⟩)]
    (by decide) (by decide) (by decide)

/-- The stored execution for the C2 counterexample: earliest
`StartedAt` among 101 stored executions of job `J`. -/
def c2stored : Execution := ⟨"J", "z", 0, 0, 10, true⟩

/-- The incoming execution for the C2 counterexample: same key as
`c2stored`, earlier `FinishedAt`. -/
def c2incoming : Execution := ⟨"J", "z", 0, 50, 5, true⟩

/-- A store with 101 executions of job `J`; `c2stored` has the
strictly earliest `StartedAt`. -/
def c2State : State :=
  ("executions/J/z", .exec c2stored) ::
  (List.range MaxExecutions).map (fun i =>
    ("executions/J/" ++ toString i, .exec ⟨"J", toString i, 0, (i : Int) + 1, 1, true⟩))

set_option maxRecDepth 200000 in
/-- C2 counterexample to the claim as stated: the store holds an
execution at the incoming key with strictly later `FinishedAt`, yet
`SetExecution` does not leave the record at that key unchanged — the
store already exceeds `MaxExecutions`, the discarded write still
triggers the retention pass, and the record (oldest by `StartedAt`) is
evicted. -/
theorem C2_out_of_order_counterexample :
    dbGet c2State (execKey c2incoming) = some (.exec c2stored) ∧
      c2stored.FinishedAt > c2incoming.FinishedAt ∧
      dbGet (SetExecution c2incoming c2State).2.2 (execKey c2incoming) = none := by
  refine ⟨by decide, by decide, by decide⟩

end Dkron

namespace Dkron

/-- A successful upsert whose parent reference is unchanged writes the
merged record and touches nothing else. -/
theorem setJob_no_parent_change (env : Env) (fuel : Nat) (job : Job) (b : Bool) (st : State)
    (ej : Job)
    (hval : validateJob env job = none)
    (hej : getExistingJob st job.Name = .ok (some ej))
    (hpj : job.ParentJob = ej.ParentJob) :
    SetJob env (fuel + 1) job b st =
      (none, dbSet st ("jobs/" ++ job.Name) (.job (mergeExisting job (some ej) b))) := by
  unfold SetJob
  simp only [hval, hej, mergeExisting_parentJob, hpj]
  simp

/-- A successful upsert of a new job with no parent writes the job and
touches nothing else. -/
theorem setJob_new_no_parent (env : Env) (fuel : Nat) (job : Job) (b : Bool) (st : State)
    (hval : validateJob env job = none)
    (hej : getExistingJob st job.Name = .ok none)
    (hpj : job.ParentJob = "") :
    SetJob env (fuel + 1) job b st =
      (none, dbSet st ("jobs/" ++ job.Name) (.job job)) := by
  unfold SetJob
  simp only [hval, hej, mergeExisting, hpj]
  simp

/-- Upsert of a new job that names a stored parent: the parent is
re-upserted with the child's name appended to its `DependentJobs`, then
the child record is written. -/
theorem setJob_new_with_parent (env : Env) (fuel : Nat) (job : Job) (b : Bool)
    (st st1 : State) (P : Job)
    (hval : validateJob env job = none)
    (hej : getExistingJob st job.Name = .ok none)
    (hpj : job.ParentJob ≠ "")
    (hP : GetJob st job.ParentJob = .ok P)
    (hinner : SetJob env fuel
        { P with DependentJobs := P.DependentJobs ++ [job.Name] } false st = (none, st1)) :
    SetJob env (fuel + 1) job b st =
      (none, dbSet st1 ("jobs/" ++ job.Name) (.job job)) := by
  unfold SetJob
  simp only [hval, hej, mergeExisting]
  have hd : decide (job.ParentJob = "") = false := decide_eq_false hpj
  simp only [removeFromParentAux, addToParentAux, hd, hP, hinner]
  simp [hpj]

end Dkron

namespace Dkron

/-- Upsert clearing the parent of a stored job: the old parent is
re-upserted with every occurrence of the child's name stripped from its
`DependentJobs`, then the merged child record is written. -/
theorem setJob_clear_parent (env : Env) (fuel : Nat) (job : Job) (b : Bool)
    (st st1 : State) (c P : Job)
    (hval : validateJob env job = none)
    (hej : getExistingJob st job.Name = .ok (some c))
    (hpjnew : job.ParentJob = "")
    (hpjold : c.ParentJob ≠ "")
    (hP : GetJob st c.ParentJob = .ok P)
    (hinner : SetJob env fuel
        { P with DependentJobs := P.DependentJobs.filter (fun djn => djn ≠ c.Name) }
        false st = (none, st1)) :
    SetJob env (fuel + 1) job b st =
      (none, dbSet st1 ("jobs/" ++ job.Name) (.job (mergeExisting job (some c) b))) := by
  unfold SetJob
  simp only [hval, hej]
  have hdec : decide ((mergeExisting job (some c) b).ParentJob = c.ParentJob) = false := by
    rw [mergeExisting_parentJob, hpjnew]
    exact decide_eq_false (Ne.symm hpjold)
  have hdec2 : decide (c.ParentJob = "") = false := decide_eq_false hpjold
  simp only [removeFromParentAux, addToParentAux, hdec, hdec2, hP, hinner,
    mergeExisting_parentJob, hpjnew]
  simp [hpjold]
  intro h
  exact absurd h.symm hpjold

end Dkron

namespace Dkron

theorem jobs_key_ne_of_ne {a b : String} (h : a ≠ b) : "jobs/" ++ a ≠ "jobs/" ++ b :=
  fun hc => h (strAppend_cancel_left hc)

theorem mergeExisting_deps_false (job ej : Job) :
    (mergeExisting job (some ej) false).DependentJobs = job.DependentJobs := by
  show (if (!ej.DependentJobs.isEmpty && false) = true then ej.DependentJobs
      else job.DependentJobs) = job.DependentJobs
  simp

/-- C4 (amended): the two upsert scenarios of parent/child symmetry.
First: upserting a new job `c` with `ParentJob = P.Name` over a store
in which `P` does not yet list `c.Name` leaves `c.Name` in `P`'s
`DependentJobs` exactly once.  Second: re-upserting the stored child
with its `ParentJob` cleared removes every occurrence of `c.Name` from
`P`'s `DependentJobs`.  (The code does not maintain the stronger
invariant that `DependentJobs` always equals the set of jobs pointing
at the parent — see the counterexample.) -/
theorem C4_parent_child_scenarios (env : Env) (fuel : Nat) :
    (∀ (st : State) (P c : Job) (b : Bool),
      validateJob env c = none → validateJob env P = none →
      c.ParentJob = P.Name → P.Name ≠ "" → c.Name ≠ P.Name →
      dbGet st ("jobs/" ++ P.Name) = some (.job P) →
      dbGet st ("jobs/" ++ c.Name) = none →
      P.DependentJobs.count c.Name = 0 →
      ∃ P2, (SetJob env (fuel + 2) c b st).1 = none ∧
        dbGet (SetJob env (fuel + 2) c b st).2 ("jobs/" ++ P.Name) = some (.job P2) ∧
        P2.DependentJobs.count c.Name = 1) ∧
    (∀ (st : State) (P c c2 : Job) (b : Bool),
      validateJob env c2 = none → validateJob env P = none →
      c.ParentJob = P.Name → P.Name ≠ "" → c.Name ≠ P.Name →
      c2.Name = c.Name → c2.ParentJob = "" →
      dbGet st ("jobs/" ++ P.Name) = some (.job P) →
      dbGet st ("jobs/" ++ c.Name) = some (.job c) →
      ∃ P2, (SetJob env (fuel + 2) c2 b st).1 = none ∧
        dbGet (SetJob env (fuel + 2) c2 b st).2 ("jobs/" ++ P.Name) = some (.job P2) ∧
        P2.DependentJobs.count c.Name = 0) := by
  constructor
  · intro st P c b hvc hvP hcp hPne hcP hP habsent hcount
    have hvP' : validateJob env
        { P with DependentJobs := P.DependentJobs ++ [c.Name] } = none := hvP
    have hejP : getExistingJob st
        ({ P with DependentJobs := P.DependentJobs ++ [c.Name] } : Job).Name =
        .ok (some P) := getExisting_of_dbGet hP
    have hinner := setJob_no_parent_change env fuel
      { P with DependentJobs := P.DependentJobs ++ [c.Name] } false st P hvP' hejP rfl
    have hgj : GetJob st c.ParentJob = .ok P := by
      unfold GetJob
      rw [hcp, hP]
    have hmain := setJob_new_with_parent env (fuel + 1) c b st _ P hvc
      (getExisting_of_dbGet_none habsent) (by rw [hcp]; exact hPne) hgj hinner
    refine ⟨mergeExisting { P with DependentJobs := P.DependentJobs ++ [c.Name] }
      (some P) false, ?_, ?_, ?_⟩
    · rw [hmain]
    · rw [hmain]
      have hne : ("jobs/" ++ P.Name : String) ≠ "jobs/" ++ c.Name :=
        jobs_key_ne_of_ne (Ne.symm hcP)
      rw [show ((none, dbSet (dbSet st ("jobs/" ++ P.Name)
          (Value.job (mergeExisting { P with DependentJobs := P.DependentJobs ++ [c.Name] }
            (some P) false))) ("jobs/" ++ c.Name) (Value.job c)) :
          Option Err × State).2 = dbSet (dbSet st ("jobs/" ++ P.Name)
          (Value.job (mergeExisting { P with DependentJobs := P.DependentJobs ++ [c.Name] }
            (some P) false))) ("jobs/" ++ c.Name) (Value.job c) from rfl]
      rw [dbGet_dbSet_ne _ _ _ _ hne]
      exact dbGet_dbSet_self _ _ _
    · rw [mergeExisting_deps_false]
      show (P.DependentJobs ++ [c.Name]).count c.Name = 1
      rw [List.count_append, hcount]
      simp
  · intro st P c c2 b hvc2 hvP hcp hPne hcP hc2n hc2p hP hc
    have hvP'' : validateJob env
        { P with DependentJobs := P.DependentJobs.filter (fun djn => djn ≠ c.Name) } =
        none := hvP
    have hejP : getExistingJob st
        ({ P with DependentJobs := P.DependentJobs.filter (fun djn => djn ≠ c.Name) } :
          Job).Name = .ok (some P) := getExisting_of_dbGet hP
    have hinner := setJob_no_parent_change env fuel
      { P with DependentJobs := P.DependentJobs.filter (fun djn => djn ≠ c.Name) }
      false st P hvP'' hejP rfl
    have hejc : getExistingJob st c2.Name = .ok (some c) := by
      rw [hc2n]
      exact getExisting_of_dbGet hc
    have hgj : GetJob st c.ParentJob = .ok P := by
      unfold GetJob
      rw [hcp, hP]
    have hmain := setJob_clear_parent env (fuel + 1) c2 b st _ c P hvc2 hejc hc2p
      (by rw [hcp]; exact hPne) hgj hinner
    refine ⟨mergeExisting
      { P with DependentJobs := P.DependentJobs.filter (fun djn => djn ≠ c.Name) }
      (some P) false, ?_, ?_, ?_⟩
    · rw [hmain]
    · rw [hmain]
      have hne : ("jobs/" ++ P.Name : String) ≠ "jobs/" ++ c2.Name := by
        rw [hc2n]
        exact jobs_key_ne_of_ne (Ne.symm hcP)
      rw [show ((none, dbSet (dbSet st ("jobs/" ++ P.Name)
          (Value.job (mergeExisting
            { P with DependentJobs := P.DependentJobs.filter (fun djn => djn ≠ c.Name) }
            (some P) false))) ("jobs/" ++ c2.Name)
          (Value.job (mergeExisting c2 (some c) b))) : Option Err × State).2 =
          dbSet (dbSet st ("jobs/" ++ P.Name)
          (Value.job (mergeExisting
            { P with DependentJobs := P.DependentJobs.filter (fun djn => djn ≠ c.Name) }
            (some P) false))) ("jobs/" ++ c2.Name)
          (Value.job (mergeExisting c2 (some c) b)) from rfl]
      rw [dbGet_dbSet_ne _ _ _ _ hne]
      exact dbGet_dbSet_self _ _ _
    · have hmem : c.Name ∉ P.DependentJobs.filter (fun djn => djn ≠ c.Name) := by
        intro hm
        have := (List.mem_filter.1 hm).2
        simp at this
      rw [mergeExisting_deps_false]
      show (P.DependentJobs.filter (fun djn => djn ≠ c.Name)).count c.Name = 0
      exact List.count_eq_zero.2 hmem

end Dkron

namespace Dkron

/-- Stored parent for the C4 counterexample (no dependents). -/
def c4P : Job := ⟨"P", "s", "", [], "", "", 0, 0, 0, 0⟩

/-- Incoming upsert for the C4 counterexample: lists a dependent
`"ghost"` that names no stored job. -/
def c4Pnew : Job := ⟨"P", "s", "", ["ghost"], "", "", 0, 0, 0, 0⟩

/-- Environment accepting every schedule and timezone. -/
def c4env : Env := ⟨fun _ => true, fun _ => true⟩

/-- Store for the C4 counterexample. -/
def c4St : State := [("jobs/P", .job c4P)]

/-- C4 counterexample to the general invariant in the claim: after a
successful upsert (here with `copyDependentJobs = true` and an empty
stored `DependentJobs`), the stored parent lists `"ghost"` among its
`DependentJobs` although no stored job's `ParentJob` points at it — a
parent's `DependentJobs` does not always equal the set of jobs whose
`ParentJob` points to it. -/
theorem C4_symmetry_counterexample :
    (SetJob c4env 2 c4Pnew true c4St).1 = none ∧
      dbGet (SetJob c4env 2 c4Pnew true c4St).2 "jobs/P" = some (.job c4Pnew) ∧
      "ghost" ∈ c4Pnew.DependentJobs ∧
      dbGet (SetJob c4env 2 c4Pnew true c4St).2 "jobs/ghost" = none := by
  refine ⟨by decide, by decide, by decide, by decide⟩

/-- C4 witness. -/
theorem C4_parent_child_scenarios_witness :
    (∃ P2, (SetJob c4env 2 (⟨"B", "", "P", [], "", "", 0, 0, 0, 0⟩ : Job) true
        [("jobs/P", .job c4P)]).1 = none ∧
      dbGet (SetJob c4env 2 (⟨"B", "", "P", [], "", "", 0, 0, 0, 0⟩ : Job) true
        [("jobs/P", .job c4P)]).2 ("jobs/" ++ c4P.Name) = some (.job P2) ∧
      P2.DependentJobs.count (⟨"B", "", "P", [], "", "", 0, 0, 0, 0⟩ : Job).Name = 1) ∧
    (∃ P2, (SetJob c4env 2 (⟨"B", "s", "", [], "", "", 0, 0, 0, 0⟩ : Job) true
        [("jobs/P", .job ⟨"P", "s", "", ["B"], "", "", 0, 0, 0, 0⟩),
         ("jobs/B", .job ⟨"B", "", "P", [], "", "", 0, 0, 0, 0⟩)]).1 = none ∧
      dbGet (SetJob c4env 2 (⟨"B", "s", "", [], "", "", 0, 0, 0, 0⟩ : Job) true
        [("jobs/P", .job ⟨"P", "s", "", ["B"], "", "", 0, 0, 0, 0⟩),
         ("jobs/B", .job ⟨"B", "", "P", [], "", "", 0, 0, 0, 0⟩)]).2
        ("jobs/" ++ (⟨"P", "s", "", ["B"], "", "", 0, 0, 0, 0⟩ : Job).Name) =
        some (.job P2) ∧
      P2.DependentJobs.count (⟨"B", "", "P", [], "", "", 0, 0, 0, 0⟩ : Job).Name = 0) :=
  ⟨(C4_parent_child_scenarios c4env 0).1 [("jobs/P", .job c4P)] c4P
      ⟨"B", "", "P", [], "", "", 0, 0, 0, 0⟩ true
      (by decide) (by decide) (by decide) (by decide) (by decide)
      (by decide) (by decide) (by decide),
   (C4_parent_child_scenarios c4env 0).2
      [("jobs/P", .job ⟨"P", "s", "", ["B"], "", "", 0, 0, 0, 0⟩),
       ("jobs/B", .job ⟨"B", "", "P", [], "", "", 0, 0, 0, 0⟩)]
      ⟨"P", "s", "", ["B"], "", "", 0, 0, 0, 0⟩
      ⟨"B", "", "P", [], "", "", 0, 0, 0, 0⟩
      ⟨"B", "s", "", [], "", "", 0, 0, 0, 0⟩ true
      (by decide) (by decide) (by decide) (by decide) (by decide)
      (by decide) (by decide) (by decide) (by decide)⟩

end Dkron

namespace Dkron

/-- Environment for the C1 scenario. -/
def c1env : Env := ⟨fun _ => true, fun _ => true⟩

/-- Root job `P`, parent of `A`. -/
def c1P : Job := ⟨"P", "s", "", ["A"], "", "", 0, 0, 0, 0⟩

/-- Job `A`: child of `P`, parent of `B`, with one stored execution. -/
def c1A : Job := ⟨"A", "", "P", ["B"], "", "", 0, 0, 0, 0⟩

/-- Job `B`, child of `A`. -/
def c1B : Job := ⟨"B", "", "A", [], "", "", 0, 0, 0, 0⟩

/-- The stored execution of `A`. -/
def c1exec : Execution := ⟨"A", "k1", 5, 3, 4, true⟩

/-- Store for the C1 scenario. -/
def c1St : State :=
  [("jobs/P", .job c1P), ("jobs/A", .job c1A), ("jobs/B", .job c1B),
   ("executions/A/k1", .exec c1exec)]

/-- C1: `DeleteJob "A"` on the three-job store removes `A`'s record
(`Get "A"` then reports NotFound), clears `B.ParentJob`, and strips
`"A"` from `P.DependentJobs` — but `A`'s execution record survives:
`DeleteExecutions` scans the bare job name `"A"` as the key prefix
(store.go line 613), which matches no stored key, and even on a match
its loop returns the nil error of `txn.Delete` before ever committing
the transaction (store.go lines 628-637), so no execution key is ever
deleted.  This contradicts the function's own documentation
("removes all executions of a job", "along with all its executions"). -/
theorem C1_deleteJob_keeps_executions :
    (DeleteJob c1env 3 "A" c1St).1 = none ∧
      dbGet (DeleteJob c1env 3 "A" c1St).2.2 "jobs/A" = none ∧
      GetJob (DeleteJob c1env 3 "A" c1St).2.2 "A" = .error .notFound ∧
      dbGet (DeleteJob c1env 3 "A" c1St).2.2 "jobs/B" =
        some (.job ⟨"B", "", "", [], "", "", 0, 0, 0, 0⟩) ∧
      dbGet (DeleteJob c1env 3 "A" c1St).2.2 "jobs/P" =
        some (.job ⟨"P", "s", "", [], "", "", 0, 0, 0, 0⟩) ∧
      DeleteExecutions "A" c1St = (none, c1St) ∧
      dbGet (DeleteJob c1env 3 "A" c1St).2.2 "executions/A/k1" = some (.exec c1exec) := by
  exact ⟨by decide, by decide, by rfl, by decide, by decide, by rfl, by decide⟩

end Dkron

namespace Dkron

/-- Entry check: the entry stores an execution of job `J`. -/
def isJobExec (J : String) (kv : String × Value) : Bool :=
  match kv.2 with
  | .exec x => x.JobName == J
  | _ => false

/-- Number of stored execution records of job `J`. -/
def jobExecCount (st : State) (J : String) : Nat := (st.filter (isJobExec J)).length

/-- The execution records of job `J` stored in `st`, in store order. -/
def execsOfJob (st : State) (J : String) : List Execution :=
  st.filterMap (fun kv =>
    match kv.2 with
    | .exec x => if x.JobName == J then some x else none
    | _ => none)

instance : IsTotal Execution (fun a b => a.StartedAt ≤ b.StartedAt) :=
  ⟨fun _ _ => le_total _ _⟩

instance : IsTrans Execution (fun a b => a.StartedAt ≤ b.StartedAt) :=
  ⟨fun _ _ _ => le_trans⟩

theorem jobs_key_ne_execKey (a : String) (e : Execution) : "jobs/" ++ a ≠ execKey e := by
  intro h
  have hd := congrArg String.data h
  rw [strData_append, execKey_data, strData_append] at hd
  have h1 : ("jobs/" : String).data = ['j', 'o', 'b', 's', '/'] := rfl
  have h2 : ("executions/" : String).data =
      ['e', 'x', 'e', 'c', 'u', 't', 'i', 'o', 'n', 's', '/'] := rfl
  rw [h1, h2] at hd
  simp at hd

/-- Under a well-formed store, the value at an execution key (if any)
is an execution record. -/
theorem dbGet_execKey_cases {st : State} (hwf : WF st) (e : Execution) :
    dbGet st (execKey e) = none ∨ ∃ p, dbGet st (execKey e) = some (.exec p) := by
  cases h : dbGet st (execKey e) with
  | none => exact Or.inl rfl
  | some v =>
    refine Or.inr ?_
    have hmem := mem_of_dbGet_eq_some h
    have hok := hwf.2 _ hmem
    cases v with
    | job j => exact absurd hok.1.symm (jobs_key_ne_execKey j.Name e)
    | marker => exact (hok : False).elim
    | exec p => exact ⟨p, rfl⟩

theorem nodup_key_unique {st : State} {k : String} {v1 v2 : Value}
    (hn : (st.map Prod.fst).Nodup) (h1 : (k, v1) ∈ st) (h2 : (k, v2) ∈ st) : v1 = v2 := by
  have e1 := dbGet_eq_some_of_mem hn h1
  have e2 := dbGet_eq_some_of_mem hn h2
  rw [e1] at e2
  exact Option.some.injEq _ _ ▸ e2.symm ▸ rfl

theorem isJobExec_imp_scanPred {st : State} {J : String}
    (hwf : ∀ kv ∈ st, entryOk kv) :
    ∀ kv ∈ st, isJobExec J kv = true → scanPred J kv = true := by
  intro kv hkv hje
  obtain ⟨k, v⟩ := kv
  cases v with
  | job j => exact absurd hje (by simp [isJobExec])
  | marker => exact absurd hje (by simp [isJobExec])
  | exec x =>
    have hok := hwf _ hkv
    have hJ : x.JobName = J := by
      have : (x.JobName == J) = true := hje
      exact beq_iff_eq.1 this
    have hk : k = execKey x := hok.1
    rw [hk]
    exact scanPred_execKey x hJ hok.2

theorem jobExecCount_le_scanned {st : State} {J : String}
    (hwf : ∀ kv ∈ st, entryOk kv) :
    jobExecCount st J ≤ (scanned st J).length :=
  filter_length_mono st _ _ (isJobExec_imp_scanPred hwf)

/-- Deleting one scanned entry removes exactly one entry from the scan. -/
theorem scanned_dbDelete {st : State} {J k : String} {v : Value}
    (hn : (st.map Prod.fst).Nodup) (hmem : (k, v) ∈ st)
    (hsp : scanPred J (k, v) = true) :
    (scanned (dbDelete st k) J).length = (scanned st J).length - 1 := by
  obtain ⟨l1, l2, hsplit⟩ := List.append_of_mem hmem
  subst hsplit
  have hkeys : ((l1.map Prod.fst) ++ k :: (l2.map Prod.fst)).Nodup := by
    simpa using hn
  have hk1 : ∀ kv ∈ l1, kv.1 ≠ k := by
    intro kv hkv he
    rw [List.nodup_append] at hkeys
    exact hkeys.2.2 (List.mem_map.2 ⟨kv, hkv, rfl⟩) (by rw [he]; exact List.mem_cons_self _ _)
  have hk2 : ∀ kv ∈ l2, kv.1 ≠ k := by
    intro kv hkv he
    rw [List.nodup_append, List.nodup_cons] at hkeys
    exact hkeys.2.1.1 (by rw [← he]; exact List.mem_map.2 ⟨kv, hkv, rfl⟩)
  have hdel : dbDelete (l1 ++ (k, v) :: l2) k = l1 ++ l2 := by
    unfold dbDelete
    rw [List.filter_append, List.filter_cons]
    have : ((k, v).1 != k) = false := by simp
    rw [this]
    simp only [Bool.false_eq_true, if_false]
    rw [List.filter_eq_self.2 (fun kv hkv => by simpa using hk1 kv hkv),
      List.filter_eq_self.2 (fun kv hkv => by simpa using hk2 kv hkv)]
  rw [hdel]
  unfold scanned
  rw [List.filter_append, List.filter_append, List.filter_cons, if_pos hsp]
  simp only [List.length_append, List.length_cons]
  omega

/-- Deleting a list of scanned entries with distinct keys removes
exactly that many entries from the scan and preserves well-formedness. -/
theorem retention_fold {J : String} : ∀ (es : List Execution) (st : State),
    WF st →
    (∀ x ∈ es, (execKey x, Value.exec x) ∈ st) →
    (∀ x ∈ es, scanPred J (execKey x, Value.exec x) = true) →
    (es.map execKey).Nodup →
    WF (es.foldl (fun acc ex => dbDelete acc (execKey ex)) st) ∧
      (scanned (es.foldl (fun acc ex => dbDelete acc (execKey ex)) st) J).length =
        (scanned st J).length - es.length := by
  intro es
  induction es with
  | nil =>
    intro st hwf _ _ _
    exact ⟨hwf, by simp⟩
  | cons x es' ih =>
    intro st hwf hmem hsp hnd
    have hx := hmem x (List.mem_cons_self x es')
    have hspx := hsp x (List.mem_cons_self x es')
    have hkx : execKey x ∉ es'.map execKey := by
      rw [List.map_cons, List.nodup_cons] at hnd
      exact hnd.1
    have hwf' : WF (dbDelete st (execKey x)) := wf_dbDelete hwf _
    have hcount := scanned_dbDelete hwf.1 hx hspx
    have hmem' : ∀ y ∈ es', (execKey y, Value.exec y) ∈ dbDelete st (execKey x) := by
      intro y hy
      have hyk : execKey y ≠ execKey x := by
        intro he
        exact hkx (he ▸ List.mem_map.2 ⟨y, hy, rfl⟩)
      refine List.mem_filter.2 ⟨hmem y (List.mem_cons_of_mem x hy), ?_⟩
      simpa using hyk
    have hnd' : (es'.map execKey).Nodup := by
      rw [List.map_cons, List.nodup_cons] at hnd
      exact hnd.2
    have hlen1 : 1 ≤ (scanned st J).length := by
      have : (execKey x, Value.exec x) ∈ scanned st J := List.mem_filter.2 ⟨hx, hspx⟩
      exact List.length_pos.2 (List.ne_nil_of_mem this)
    obtain ⟨hwf2, hcount2⟩ := ih (dbDelete st (execKey x)) hwf'
      hmem' (fun y hy => hsp y (List.mem_cons_of_mem x hy)) hnd'
    refine ⟨by simpa using hwf2, ?_⟩
    simp only [List.foldl_cons] at *
    rw [hcount2, hcount]
    simp only [List.length_cons]
    omega

end Dkron

namespace Dkron

/-- The retention pass that follows an execution save never leaves more
than `MaxExecutions` execution records of the job in a well-formed
store. -/
theorem retention_bound {J : String} {st1 : State} (hwf : WF st1) :
    jobExecCount
      (match GetExecutions st1 J with
       | .error _ => st1
       | .ok execs =>
         if execs.length > MaxExecutions then
           ((List.insertionSort (fun a b => a.StartedAt ≤ b.StartedAt) execs).take
             (execs.length - MaxExecutions)).foldl
             (fun acc ex => dbDelete acc (execKey ex)) st1
         else st1) J ≤ MaxExecutions := by
  cases hge : GetExecutions st1 J with
  | error err =>
    show jobExecCount st1 J ≤ MaxExecutions
    cases hany : st1.any fun kv => hasPfx (epfx J) kv.1
    · have h0 : st1.filter (isJobExec J) = [] := by
        rw [List.filter_eq_nil]
        intro kv hkv hje
        have hsp := isJobExec_imp_scanPred hwf.2 kv hkv hje
        have hpfx : hasPfx (epfx J) kv.1 = true := by
          unfold scanPred at hsp
          rw [Bool.and_eq_true] at hsp
          exact hsp.1
        have hT : (st1.any fun kv => hasPfx (epfx J) kv.1) = true :=
          List.any_eq_true.2 ⟨kv, hkv, hpfx⟩
        rw [hany] at hT
        simp at hT
      unfold jobExecCount
      rw [h0]
      simp [MaxExecutions]
    · exfalso
      obtain ⟨es, hok, _⟩ := getExecutions_ok hwf.2 hany
      rw [hge] at hok
      exact Except.noConfusion hok
  | ok execs =>
    show jobExecCount (if execs.length > MaxExecutions then
        ((List.insertionSort (fun a b => a.StartedAt ≤ b.StartedAt) execs).take
          (execs.length - MaxExecutions)).foldl
          (fun acc ex => dbDelete acc (execKey ex)) st1
      else st1) J ≤ MaxExecutions
    have hu := getExecutions_ok_inv hge
    obtain ⟨es0, hok0, hform⟩ := scanned_spec J hwf.2
    rw [hok0] at hu
    injection hu with hes
    rw [hes] at hform
    have hslen : (scanned st1 J).length = execs.length := by
      rw [hform, List.length_map]
    by_cases hlen : execs.length > MaxExecutions
    · rw [if_pos hlen]
      have hsub : ∀ x ∈ execs, (execKey x, Value.exec x) ∈ st1 ∧
          scanPred J (execKey x, Value.exec x) = true := by
        intro x hx
        have hmm : (execKey x, Value.exec x) ∈ scanned st1 J := by
          rw [hform]
          exact List.mem_map.2 ⟨x, hx, rfl⟩
        exact List.mem_filter.1 hmm
      have hkeysN : (execs.map execKey).Nodup := by
        have h1 : (scanned st1 J).map Prod.fst = execs.map execKey := by
          rw [hform, List.map_map]
          rfl
        have h2 : ((scanned st1 J).map Prod.fst).Nodup :=
          ((List.filter_sublist st1).map Prod.fst).nodup hwf.1
        rw [h1] at h2
        exact h2
      obtain ⟨sorted, hsorted_def⟩ : ∃ l,
          List.insertionSort (fun a b : Execution => a.StartedAt ≤ b.StartedAt) execs = l :=
        ⟨_, rfl⟩
      rw [hsorted_def]
      have hperm : List.Perm sorted execs := by
        rw [← hsorted_def]
        exact List.perm_insertionSort _ _
      have hmem_t : ∀ x ∈ sorted.take (execs.length - MaxExecutions),
          (execKey x, Value.exec x) ∈ st1 := by
        intro x hx
        exact (hsub x (hperm.mem_iff.1 ((List.take_sublist _ _).subset hx))).1
      have hsp_t : ∀ x ∈ sorted.take (execs.length - MaxExecutions),
          scanPred J (execKey x, Value.exec x) = true := by
        intro x hx
        exact (hsub x (hperm.mem_iff.1 ((List.take_sublist _ _).subset hx))).2
      have hnd_t : ((sorted.take (execs.length - MaxExecutions)).map execKey).Nodup := by
        have h1 : (sorted.map execKey).Nodup := ((hperm.map execKey).symm).nodup hkeysN
        rw [List.map_take]
        exact (List.take_sublist _ _).nodup h1
      obtain ⟨hwfpost, hcount⟩ := retention_fold
        (sorted.take (execs.length - MaxExecutions)) st1 hwf hmem_t hsp_t hnd_t
      have htlen : (sorted.take (execs.length - MaxExecutions)).length =
          execs.length - MaxExecutions := by
        rw [List.length_take]
        have := hperm.length_eq
        omega
      have hle := jobExecCount_le_scanned (J := J) hwfpost.2
      rw [hcount, hslen, htlen] at hle
      omega
    · rw [if_neg hlen]
      have hle := jobExecCount_le_scanned (J := J) hwf.2
      omega

/-- After any `SetExecution` on a well-formed store, at most
`MaxExecutions` execution records of the job remain stored. -/
theorem setExecution_capped (e : Execution) (st : State) (hwf : WF st) (hk : e.Key ≠ "") :
    jobExecCount (SetExecution e st).2.2 e.JobName ≤ MaxExecutions := by
  unfold SetExecution
  rcases dbGet_execKey_cases hwf e with hnone | ⟨p, hsome⟩
  · simp only [hnone]
    exact retention_bound (wf_dbSet hwf ⟨rfl, hk⟩)
  · simp only [hsome]
    by_cases hgt : p.FinishedAt > e.FinishedAt
    · rw [if_pos hgt]
      exact retention_bound hwf
    · rw [if_neg hgt]
      exact retention_bound (wf_dbSet hwf ⟨rfl, hk⟩)

end Dkron

namespace Dkron

theorem execsOfJob_mem {st : State} {J : String} (hwf : WF st) (x : Execution) :
    x ∈ execsOfJob st J ↔ ((execKey x, Value.exec x) ∈ st ∧ x.JobName = J) := by
  constructor
  · intro hx
    obtain ⟨kv, hkv, hmatch⟩ := List.mem_filterMap.1 hx
    obtain ⟨k, v⟩ := kv
    cases v with
    | job j => exact absurd hmatch (by simp [execsOfJob])
    | marker => exact absurd hmatch (by simp [execsOfJob])
    | exec y =>
      simp only at hmatch
      cases hby : (y.JobName == J) with
      | false => rw [hby] at hmatch; exact absurd hmatch (by simp)
      | true =>
        rw [hby] at hmatch
        simp only [if_true] at hmatch
        injection hmatch with hyx
        subst hyx
        have hok := hwf.2 _ hkv
        have hkk : k = execKey y := hok.1
        subst hkk
        exact ⟨hkv, beq_iff_eq.1 hby⟩
  · rintro ⟨hmem, hJ⟩
    exact List.mem_filterMap.2 ⟨(execKey x, .exec x), hmem, by simp [hJ]⟩

theorem value_exec_inj {y x : Execution} (h : Value.exec y = Value.exec x) : y = x := by
  injection h

/-- Saving a 101st execution of a job into a well-formed store whose
scan prefix holds only that job's executions: exactly `MaxExecutions`
remain, the execution with the strictly earliest `StartedAt` is
evicted, and every other one survives unchanged. -/
theorem setExecution_101st (e emin : Execution) (st : State)
    (hwf : WF st) (hk : e.Key ≠ "")
    (hnew : dbGet st (execKey e) = none)
    (hfull : jobExecCount st e.JobName = MaxExecutions)
    (honly : ∀ kv ∈ st, hasPfx (epfx e.JobName) kv.1 = true →
      isJobExec e.JobName kv = true)
    (hmin_mem : emin ∈ e :: execsOfJob st e.JobName)
    (hmin : ∀ x ∈ e :: execsOfJob st e.JobName, x ≠ emin →
      emin.StartedAt < x.StartedAt) :
    jobExecCount (SetExecution e st).2.2 e.JobName = MaxExecutions ∧
      dbGet (SetExecution e st).2.2 (execKey emin) = none ∧
      ∀ x ∈ e :: execsOfJob st e.JobName, x ≠ emin →
        dbGet (SetExecution e st).2.2 (execKey x) = some (.exec x) := by
  have hwf1 : WF (dbSet st (execKey e) (.exec e)) := wf_dbSet hwf ⟨rfl, hk⟩
  have happ : dbSet st (execKey e) (.exec e) = st ++ [(execKey e, .exec e)] :=
    dbSet_of_absent _ hnew
  -- pointwise agreement of the scan predicate and the job predicate
  have hpred : ∀ kv ∈ st, scanPred e.JobName kv = isJobExec e.JobName kv := by
    intro kv hkv
    cases hje : isJobExec e.JobName kv with
    | true => exact isJobExec_imp_scanPred hwf.2 kv hkv hje
    | false =>
      cases hspv : scanPred e.JobName kv with
      | false => rfl
      | true =>
        exfalso
        have hpfx : hasPfx (epfx e.JobName) kv.1 = true := by
          unfold scanPred at hspv
          rw [Bool.and_eq_true] at hspv
          exact hspv.1
        rw [honly kv hkv hpfx] at hje
        exact Bool.noConfusion hje
  have hscan_st : scanned st e.JobName = st.filter (isJobExec e.JobName) :=
    List.filter_congr hpred
  have hscan_len : (scanned st e.JobName).length = MaxExecutions := by
    rw [hscan_st]
    exact hfull
  have hspe : scanPred e.JobName (execKey e, Value.exec e) = true :=
    scanPred_execKey e rfl hk
  have hje_e : isJobExec e.JobName (execKey e, Value.exec e) = true := by
    simp [isJobExec]
  have hscan1 : scanned (dbSet st (execKey e) (.exec e)) e.JobName =
      scanned st e.JobName ++ [(execKey e, Value.exec e)] := by
    rw [happ]
    unfold scanned
    rw [List.filter_append]
    simp [hspe]
  obtain ⟨es, hok, hform⟩ := scanned_spec e.JobName hwf1.2
  have hlen_es : es.length = MaxExecutions + 1 := by
    have h1 : (scanned (dbSet st (execKey e) (.exec e)) e.JobName).length = es.length := by
      rw [hform, List.length_map]
    rw [hscan1, List.length_append, hscan_len] at h1
    simpa using h1.symm
  have hany1 : ((dbSet st (execKey e) (.exec e)).any
      fun kv => hasPfx (epfx e.JobName) kv.1) = true := by
    refine List.any_eq_true.2 ⟨(execKey e, .exec e), ?_, hasPfx_epfx_execKey e⟩
    rw [happ]
    exact List.mem_append.2 (Or.inr (List.mem_singleton.2 rfl))
  have hge : GetExecutions (dbSet st (execKey e) (.exec e)) e.JobName = .ok es := by
    rw [getExecutions_eq_unmarshal hany1]
    exact hok
  have hmem_map_to_es : ∀ x : Execution,
      (execKey x, Value.exec x) ∈ scanned (dbSet st (execKey e) (.exec e)) e.JobName →
      x ∈ es := by
    intro x hx
    rw [hform] at hx
    obtain ⟨y, hy, hfy⟩ := List.mem_map.1 hx
    have := value_exec_inj (congrArg Prod.snd hfy)
    exact this ▸ hy
  have hes_mem : ∀ x : Execution, x ∈ es ↔ x ∈ e :: execsOfJob st e.JobName := by
    intro x
    constructor
    · intro hx
      have hfx : (execKey x, Value.exec x) ∈
          scanned (dbSet st (execKey e) (.exec e)) e.JobName := by
        rw [hform]
        exact List.mem_map.2 ⟨x, hx, rfl⟩
      rw [hscan1] at hfx
      rcases List.mem_append.1 hfx with hin | hin
      · have hmf := List.mem_filter.1 hin
        have hje : isJobExec e.JobName (execKey x, Value.exec x) = true := by
          rw [← hpred _ hmf.1]
          exact hmf.2
        have hJx : x.JobName = e.JobName := by
          have : (x.JobName == e.JobName) = true := hje
          exact beq_iff_eq.1 this
        exact List.mem_cons_of_mem e ((execsOfJob_mem hwf x).2 ⟨hmf.1, hJx⟩)
      · have hx1 := List.mem_singleton.1 hin
        have := value_exec_inj (congrArg Prod.snd hx1)
        rw [this]
        exact List.mem_cons_self _ _
    · intro hx
      rcases List.mem_cons.1 hx with he | hmem
      · subst he
        refine hmem_map_to_es x ?_
        rw [hscan1]
        exact List.mem_append.2 (Or.inr (List.mem_singleton.2 rfl))
      · obtain ⟨hmemst, hJx⟩ := (execsOfJob_mem hwf x).1 hmem
        refine hmem_map_to_es x ?_
        rw [hscan1]
        refine List.mem_append.2 (Or.inl ?_)
        refine List.mem_filter.2 ⟨hmemst, ?_⟩
        have hkx : x.Key ≠ "" := (hwf.2 _ hmemst).2
        exact scanPred_execKey x hJx hkx
  obtain ⟨sorted, hsdef⟩ : ∃ l,
      List.insertionSort (fun a b : Execution => a.StartedAt ≤ b.StartedAt) es = l :=
    ⟨_, rfl⟩
  have hperm : List.Perm sorted es := by
    rw [← hsdef]
    exact List.perm_insertionSort _ _
  have hsort : sorted.Sorted (fun a b => a.StartedAt ≤ b.StartedAt) := by
    rw [← hsdef]
    exact List.sorted_insertionSort _ _
  have hsne : sorted ≠ [] := by
    intro h0
    have := hperm.length_eq
    rw [h0, hlen_es] at this
    simp at this
  obtain ⟨h0, rest, hcons⟩ := List.exists_cons_of_ne_nil hsne
  have hh0 : h0 = emin := by
    have hh0es : h0 ∈ es := hperm.mem_iff.1 (by rw [hcons]; exact List.mem_cons_self _ _)
    by_contra hne
    have h1 : emin.StartedAt < h0.StartedAt :=
      hmin h0 ((hes_mem h0).1 hh0es) (fun he => hne he)
    have hemines : emin ∈ sorted := hperm.mem_iff.2 ((hes_mem emin).2 hmin_mem)
    rw [hcons] at hemines hsort
    rcases List.mem_cons.1 hemines with he | hm
    · exact hne he.symm
    · have h2 := List.rel_of_sorted_cons hsort emin hm
      omega
  have htake : sorted.take (es.length - MaxExecutions) = [emin] := by
    rw [hlen_es, Nat.add_sub_cancel_left, hcons, hh0]
    rfl
  have hpost : (SetExecution e st).2.2 =
      dbDelete (dbSet st (execKey e) (.exec e)) (execKey emin) := by
    unfold SetExecution
    simp only [hnew, hge]
    rw [if_pos (by rw [hlen_es]; simp [MaxExecutions])]
    rw [hsdef, htake]
    rfl
  have hmemin_scan : (execKey emin, Value.exec emin) ∈
      scanned (dbSet st (execKey e) (.exec e)) e.JobName := by
    rw [hform]
    exact List.mem_map.2 ⟨emin, (hes_mem emin).2 hmin_mem, rfl⟩
  have hmemin1 : (execKey emin, Value.exec emin) ∈ dbSet st (execKey e) (.exec e) :=
    (List.filter_sublist _).subset hmemin_scan
  have hsp_min : scanPred e.JobName (execKey emin, Value.exec emin) = true :=
    (List.mem_filter.1 hmemin_scan).2
  refine ⟨?_, ?_, ?_⟩
  · -- exactly MaxExecutions remain
    have hdel_len : (scanned (dbDelete (dbSet st (execKey e) (.exec e)) (execKey emin))
        e.JobName).length = MaxExecutions := by
      rw [scanned_dbDelete hwf1.1 hmemin1 hsp_min]
      have h1 : (scanned (dbSet st (execKey e) (.exec e)) e.JobName).length =
          MaxExecutions + 1 := by
        rw [hscan1, List.length_append, hscan_len]
        rfl
      omega
    have hpred1 : ∀ kv ∈ dbDelete (dbSet st (execKey e) (.exec e)) (execKey emin),
        scanPred e.JobName kv = isJobExec e.JobName kv := by
      intro kv hkv
      have hkv1 : kv ∈ dbSet st (execKey e) (.exec e) :=
        (List.filter_sublist _).subset hkv
      rw [happ] at hkv1
      rcases List.mem_append.1 hkv1 with hin | hin
      · exact hpred kv hin
      · rw [List.mem_singleton.1 hin, hspe, hje_e]
    rw [hpost]
    unfold jobExecCount
    rw [← List.filter_congr hpred1]
    exact hdel_len
  · rw [hpost]
    exact dbGet_dbDelete_self _ _
  · intro x hx hxne
    have hxes : x ∈ es := (hes_mem x).2 hx
    have hxscan : (execKey x, Value.exec x) ∈
        scanned (dbSet st (execKey e) (.exec e)) e.JobName := by
      rw [hform]
      exact List.mem_map.2 ⟨x, hxes, rfl⟩
    have hxmem1 : (execKey x, Value.exec x) ∈ dbSet st (execKey e) (.exec e) :=
      (List.filter_sublist _).subset hxscan
    have hkne : execKey x ≠ execKey emin := by
      intro hkeq
      have := nodup_key_unique hwf1.1 (hkeq ▸ hxmem1) hmemin1
      exact hxne (value_exec_inj this)
    rw [hpost, dbGet_dbDelete_ne _ _ _ hkne]
    exact dbGet_eq_some_of_mem hwf1.1 hxmem1

end Dkron

namespace Dkron

/-- C3: after any `SetExecution` on a well-formed store, at most
`MaxExecutions` (100) execution records of the job remain; in
particular, saving a 101st execution of a job (whose scan prefix holds
only that job's executions) leaves exactly 100 stored, the execution
with the strictly earliest `StartedAt` is evicted, and every other
execution survives. -/
theorem C3_retention_cap :
    (∀ (e : Execution) (st : State), WF st → e.Key ≠ "" →
      jobExecCount (SetExecution e st).2.2 e.JobName ≤ MaxExecutions) ∧
    (∀ (e emin : Execution) (st : State), WF st → e.Key ≠ "" →
      dbGet st (execKey e) = none →
      jobExecCount st e.JobName = MaxExecutions →
      (∀ kv ∈ st, hasPfx (epfx e.JobName) kv.1 = true →
        isJobExec e.JobName kv = true) →
      emin ∈ e :: execsOfJob st e.JobName →
      (∀ x ∈ e :: execsOfJob st e.JobName, x ≠ emin →
        emin.StartedAt < x.StartedAt) →
      jobExecCount (SetExecution e st).2.2 e.JobName = MaxExecutions ∧
        dbGet (SetExecution e st).2.2 (execKey emin) = none ∧
        ∀ x ∈ e :: execsOfJob st e.JobName, x ≠ emin →
          dbGet (SetExecution e st).2.2 (execKey x) = some (.exec x)) :=
  ⟨fun e st hwf hk => setExecution_capped e st hwf hk,
   fun e emin st hwf hk hnew hfull honly hmem hmin =>
     setExecution_101st e emin st hwf hk hnew hfull honly hmem hmin⟩

/-- 100 stored executions of job `J` with `StartedAt` 1..100. -/
def c3St : State :=
  (List.range MaxExecutions).map (fun i =>
    ("executions/J/" ++ toString i, .exec ⟨"J", toString i, 0, (i : Int) + 1, 1, true⟩))

/-- The 101st execution for the C3 witness; earliest `StartedAt`. -/
def c3e : Execution := ⟨"J", "z", 0, 0, 5, true⟩

set_option maxRecDepth 400000 in
/-- C3 witness. -/
theorem C3_retention_cap_witness :
    jobExecCount (SetExecution (⟨"J", "k", 0, 0, 0, true⟩ : Execution) []).2.2
      (⟨"J", "k", 0, 0, 0, true⟩ : Execution).JobName ≤ MaxExecutions ∧
    (jobExecCount (SetExecution c3e c3St).2.2 c3e.JobName = MaxExecutions ∧
      dbGet (SetExecution c3e c3St).2.2 (execKey c3e) = none ∧
      ∀ x ∈ c3e :: execsOfJob c3St c3e.JobName, x ≠ c3e →
        dbGet (SetExecution c3e c3St).2.2 (execKey x) = some (.exec x)) :=
  ⟨C3_retention_cap.1 ⟨"J", "k", 0, 0, 0, true⟩ [] (by decide) (by decide),
   C3_retention_cap.2 c3e c3e c3St (by decide) (by decide) (by decide) (by decide)
     (by decide) (by decide) (by decide)⟩

end Dkron
